import Mathlib

/-!
Verification of the `Link`/`Links` doubly-linked container of
`jhsiao/utils/linkedlist.py`.

The Python objects are shallowly embedded as follows: every `Link` object
(`[pre, post, item]`) is a `Node` stored in a heap (a list of nodes indexed
by address); Python `None` is `Option.none`, both for neighbour references
and for payloads.  A `Links` instance is a record of `first`, `last` and
`_length`.  All methods are translated line by line from the source,
including the incomplete / fall-through branches it contains; Python
exceptions become `Except PyErr`.
-/

namespace LinkedList

/-- A Python `Link` object, i.e. the length-3 list `[pre, post, item]`:
`prev`/`next` hold the address of the neighbouring link (`none` = Python
`None`), `item` the payload (`none` models a Python `None` payload). -/
structure Node (α : Type) where
  prev : Option Nat
  next : Option Nat
  item : Option α
deriving Repr, DecidableEq

/-- The heap of allocated `Link` objects; a link's address is its index. -/
abbrev Heap (α : Type) : Type := List (Node α)

variable {α : Type}

/-- Read the node at address `a` (all addresses used by the code are valid;
the default is never reached from the translated operations). -/
def nodeAt (h : Heap α) (a : Nat) : Node α := h.getD a ⟨none, none, none⟩

/-- Python exceptions raised by the translated code.  `mismatchErr` is the
`Exception('extended slice assignment must be equal lengths.')` of
`__setitem__`. -/
inductive PyErr
  | typeErr
  | indexErr
  | valueErr
  | mismatchErr
deriving Repr, DecidableEq

/-- Decidable equality of operation results, so concrete runs can be checked
by `decide`. -/
instance {ε β : Type} [DecidableEq ε] [DecidableEq β] : DecidableEq (Except ε β) :=
  fun x y =>
    match x, y with
    | .ok a, .ok b =>
      if h : a = b then isTrue (by rw [h])
      else isFalse (by intro he; cases he; exact h rfl)
    | .error a, .error b =>
      if h : a = b then isTrue (by rw [h])
      else isFalse (by intro he; cases he; exact h rfl)
    | .ok _, .error _ => isFalse (by intro he; cases he)
    | .error _, .ok _ => isFalse (by intro he; cases he)

/-- The state of a `Links` instance: `first`, `last`, `_length`. -/
structure PyLinks where
  first : Option Nat
  last : Option Nat
  length : Int
deriving Repr, DecidableEq

/-- A fresh `Links()`. -/
def emptyLinks : PyLinks := ⟨none, none, 0⟩

/-- The `for _ in range(k): link = link[idx]` loop of `Link.__rshift__`:
follow `next` (`dir = true`) or `prev` (`dir = false`) `k` times.  An outer
`none` models the `TypeError` raised when indexing a Python `None`; `some l`
is normal completion (where `l` itself may be Python `None` when the final
hop read a null neighbour). -/
def hopChain (h : Heap α) (dir : Bool) : Option Nat → Nat → Option (Option Nat)
  | l, 0 => some l
  | none, _ + 1 => none
  | some a, k + 1 =>
      hopChain h dir (if dir then (nodeAt h a).next else (nodeAt h a).prev) k

/-- `Link.__rshift__` (source lines 16–27): step `amount` links, following
`next` when `amount > 0` and `prev` otherwise; the internal `TypeError` is
caught and turned into Python `None`. -/
def rshift (h : Heap α) (a : Nat) (amount : Int) : Option Nat :=
  match hopChain h (decide (0 < amount)) (some a) amount.natAbs with
  | none => none
  | some l => l

/-- `Links.__call__` (lines 121–132): resolve an integer index to a link
address.  Stepping past an end gives Python `None` (falsy), and an empty
container makes `None >> idx` raise `TypeError`; both paths raise
`IndexError`. -/
def callIdx (h : Heap α) (s : PyLinks) (idx : Int) : Except PyErr Nat :=
  let r : Option Nat :=
    if 0 ≤ idx then
      match s.first with
      | none => none
      | some a => rshift h a idx
    else
      match s.last with
      | none => none
      | some a => rshift h a (idx + 1)
  match r with
  | some a => .ok a
  | none => .error .indexErr

/-- `Links.__getitem__` with an integer index (lines 136–137):
`self(idx)[2]`. -/
def getItemInt (h : Heap α) (s : PyLinks) (idx : Int) : Except PyErr (Option α) :=
  (callIdx h s idx).map (fun a => (nodeAt h a).item)

/-- `Links.__setitem__` with an integer index (lines 167–168):
`self(idx)[2] = item`. -/
def setItemInt (h : Heap α) (s : PyLinks) (idx : Int) (v : Option α) :
    Except PyErr (Heap α × PyLinks) :=
  (callIdx h s idx).map (fun a => (h.set a { nodeAt h a with item := v }, s))

/-- CPython `slice.indices(length)` (`PySlice_GetIndicesEx`), the library
routine `__getitem__`/`__setitem__` call for integer-based slices; a zero
step raises `ValueError`. -/
def sliceIndices (start stop step : Option Int) (length : Int) :
    Except PyErr (Int × Int × Int) :=
  let st := step.getD 1
  if st = 0 then .error .valueErr
  else
    let lower : Int := if st < 0 then -1 else 0
    let upper : Int := if st < 0 then length - 1 else length
    let s0 : Int :=
      match start with
      | none => if st < 0 then upper else lower
      | some v => if v < 0 then max (v + length) lower else min v upper
    let s1 : Int :=
      match stop with
      | none => if st < 0 then lower else upper
      | some v => if v < 0 then max (v + length) lower else min v upper
    .ok (s0, s1, st)

/-- Lines 141–147 (and identically 172–178): resolve the anchor link of an
integer-based slice, stepping from the nearer end.  On an empty container
`self.first`/`self.last` is `None` and `None >> start` (resp.
`None << fromback`) raises an uncaught `TypeError`. -/
def sliceAnchor (h : Heap α) (s : PyLinks) (start : Int) :
    Except PyErr (Option Nat) :=
  let fromback := (s.length - 1) - start
  if start < fromback then
    match s.first with
    | none => .error .typeErr
    | some a => .ok (rshift h a start)
  else
    match s.last with
    | none => .error .typeErr
    | some a => .ok (rshift h a (-fromback))

/-- Phase of a suspended `link_islice` generator. -/
inductive GPhase
  | initial
  | running
  | done
deriving Repr, DecidableEq

/-- A suspended `Links.link_islice` generator (lines 81–118): `link` is the
generator's current link variable (an `Option` since Python `None` can be
yielded and stored), `cur` and `target` the counters, `stp` the effective
step. -/
structure Gen where
  phase : GPhase
  link : Option Nat
  cur : Int
  target : Int
  stp : Int
deriving Repr, DecidableEq

/-- Creation of the `link_islice` generator: the normalisation at the top of
the generator body (lines 89–97) touches only `target`, `step` and
`self._length`, never the heap, so it is performed here.  `target = 0`
returns immediately; a falsy step (`None` or `0`) becomes `±1` following the
sign of `target`; a direction mismatch also returns immediately. -/
def mkGen (length : Int) (link : Option Nat) (target0 step0 : Option Int) : Gen :=
  if target0 = some 0 then ⟨.done, link, 0, 0, 1⟩
  else
    let t := target0.getD length
    let s : Int :=
      match step0 with
      | none => if 0 < t then 1 else -1
      | some v => if v = 0 then (if 0 < t then 1 else -1) else v
    if (decide (0 < s)) ≠ (decide (0 < t)) then ⟨.done, link, 0, t, s⟩
    else ⟨.initial, link, 0, t, s⟩

/-- Resume the `link_islice` generator once against the current heap.
Result `(some y, g)` is a yield (where `y` may be Python `None`: the
`for _ in range(step)` loop completes even when its *last* hop reads a null
neighbour); `(none, g)` is `StopIteration` (including the caught internal
`TypeError`). -/
def isliceNext (h : Heap α) (g : Gen) : Option (Option Nat) × Gen :=
  match g.phase with
  | .done => (none, g)
  | .initial => (some g.link, { g with phase := .running, cur := g.stp })
  | .running =>
    if 0 < g.stp then
      if g.cur < g.target then
        match hopChain h true g.link g.stp.natAbs with
        | none => (none, { g with phase := .done })
        | some l => (some l, { g with link := l, cur := g.cur + g.stp })
      else (none, { g with phase := .done })
    else
      if g.target < g.cur then
        match hopChain h false g.link g.stp.natAbs with
        | none => (none, { g with phase := .done })
        | some l => (some l, { g with link := l, cur := g.cur + g.stp })
      else (none, { g with phase := .done })

/-- Collect the yields of a `link_islice` generator whose consumer does not
mutate the chain while iterating (`__getitem__` builds only fresh links, the
extended-step branch of `__setitem__` materialises `list(zip(...))` before
mutating payloads). -/
def genYields (h : Heap α) (g : Gen) : Nat → List (Option Nat)
  | 0 => []
  | fuel + 1 =>
    match isliceNext h g with
    | (none, _) => []
    | (some y, g1) => y :: genYields h g1 fuel

/-- Fuel that provably outlasts any `link_islice` run: `cur` moves from
`stp` towards `target` by at least 1 per yield. -/
def genFuel (g : Gen) : Nat := g.target.natAbs + 2

/-- The chain-building loop that appears verbatim both in `Links.insert`
(lines 340–343) and in `Links.__getitem__` (lines 157–160): allocate a link
per item, back-patching the previously built link's `next`
(`post = Link(pre, None, item); pre[1] = pre = post`).  Returns the grown
heap, the last built link's address and the running item count. -/
def buildLoop (h : Heap α) (pre : Nat) (n : Nat) : List (Option α) → Heap α × Nat × Nat
  | [] => (h, pre, n)
  | x :: rest =>
    let pa := h.length
    let h1 := h ++ [⟨some pre, none, x⟩]
    let h2 := h1.set pre { nodeAt h1 pre with next := some pa }
    buildLoop h2 pa (n + 1) rest

/-- `Links.insert` after its anchor has been resolved to a link or `None`
(lines 334–366).  The translation keeps the source's fall-through: the
`if link is None:` block (lines 344–351) splices the chain at the end, and
then — there is no `else` — the `try: post = link[1]` (line 352) raises
`TypeError` on `None` and lines 355–357 *overwrite* `first`, `last` and
`_length` with the fresh chain alone. -/
def insertAt (h : Heap α) (s : PyLinks) (link : Option Nat)
    (items : List (Option α)) : Heap α × PyLinks :=
  match items with
  | [] => (h, s)
  | x :: rest =>
    let a0 := h.length
    let h1 := h ++ [⟨none, none, x⟩]
    let built := buildLoop h1 a0 1 rest
    let h2 := built.1
    let pre := built.2.1
    let nitems : Int := (built.2.2 : Nat)
    match link with
    | none =>
      let h3 := h2.set a0 { nodeAt h2 a0 with prev := s.last }
      let h4 :=
        match s.last with
        | none => h3
        | some la => h3.set la { nodeAt h3 la with next := some a0 }
      (h4, ⟨some a0, some pre, nitems⟩)
    | some la =>
      let post := (nodeAt h2 la).next
      let h3 := h2.set la { nodeAt h2 la with next := some a0 }
      let h4 := h3.set a0 { nodeAt h3 a0 with prev := some la }
      let h5 := h4.set pre { nodeAt h4 pre with next := post }
      match post with
      | none => (h5, { s with last := some pre, length := s.length + nitems })
      | some pa =>
        (h5.set pa { nodeAt h5 pa with prev := some pre },
         { s with length := s.length + nitems })

/-- The `linkOrIdx` argument of `Links.insert`: a Python int, a `Link`, or
`None`. -/
inductive LinkArg
  | byIdx (i : Int)
  | byLink (a : Nat)
  | noLink
deriving Repr, DecidableEq

/-- `Links.insert` including its anchor resolution (lines 323–333). -/
def insertOp (h : Heap α) (s : PyLinks) (arg : LinkArg)
    (items : List (Option α)) : Except PyErr (Heap α × PyLinks) :=
  match arg with
  | .byIdx i0 =>
    let i := if i0 < 0 then i0 + s.length else i0
    if s.length ≤ i then .ok (insertAt h s none items)
    else if i ≤ 0 then .ok (insertAt h s s.first items)
    else (callIdx h s i).map (fun a => insertAt h s (some a) items)
  | .byLink a => .ok (insertAt h s (some a) items)
  | .noLink => .ok (insertAt h s none items)

/-- `Links.extend(items, link)` (lines 311–316): `self.insert(link[1], items)`.
The default anchor is the tuple `(None, None)`, whose second component is
`None`; a real link argument contributes its `next` field. -/
def extendOp (h : Heap α) (s : PyLinks) (items : List (Option α))
    (link : Option Nat) : Heap α × PyLinks :=
  match link with
  | none => insertAt h s none items
  | some la => insertAt h s (nodeAt h la).next items

/-- `Links.__init__` (lines 47–52) on an existing heap: a fresh container
extended with the given items. -/
def linksNew (h : Heap α) (items : List (Option α)) : Heap α × PyLinks :=
  extendOp h emptyLinks items none

/-- A container built from a reference sequence: `Links(xs)` on a fresh
heap. -/
def mkLinks (xs : List α) : Heap α × PyLinks :=
  linksNew ([] : Heap α) (xs.map some)

/-- `Links.pop` (lines 224–249): resolve the argument (int, link, or default
`None` = pop the tail), raise `IndexError` when the resolved link is `None`
(`link[0]` on `None`), otherwise unlink it, null its `prev`/`next`, fix the
neighbours and endpoints, and return its address. -/
def popOp (h : Heap α) (s : PyLinks) (arg : LinkArg) :
    Except PyErr (Heap α × PyLinks × Nat) :=
  let resolved : Except PyErr (Option Nat) :=
    match arg with
    | .byIdx i => (callIdx h s i).map some
    | .byLink a => .ok (some a)
    | .noLink => .ok s.last
  match resolved with
  | .error e => .error e
  | .ok none => .error .indexErr
  | .ok (some la) =>
    let pre := (nodeAt h la).prev
    let post := (nodeAt h la).next
    let h1 := h.set la { nodeAt h la with prev := none, next := none }
    let s1 := { s with length := s.length - 1 }
    let h2 :=
      match pre with
      | some pa => h1.set pa { nodeAt h1 pa with next := post }
      | none => h1
    let s2 :=
      match pre with
      | some _ => s1
      | none => { s1 with first := post }
    match post with
    | some pa => .ok (h2.set pa { nodeAt h2 pa with prev := pre }, s2, la)
    | none => .ok (h2, { s2 with last := pre }, la)

/-- The loop of `Links.clear` (lines 254–255), interleaved with the
`links()` generator (lines 259–264): the generator reads `link[1]` only
*after* the loop body has set it to `None`, so the walk stops right after
the first link. -/
def clearLoop (h : Heap α) : Option Nat → Nat → Heap α
  | none, _ => h
  | some _, 0 => h
  | some a, fuel + 1 =>
    let h1 := h.set a ⟨none, none, none⟩
    clearLoop h1 (nodeAt h1 a).next fuel

/-- `Links.clear` (lines 251–257). -/
def clearOp (h : Heap α) (s : PyLinks) : Heap α × PyLinks :=
  (clearLoop h s.first (h.length + 1), ⟨none, none, 0⟩)

/-- The result-building part of `Links.__getitem__` (lines 153–162), applied
to the generator's yields: the first yield `y0` seeds `ret.first`, the rest
are copied by the chain-building loop; a `None` yielded mid-stream makes
`link[2]` raise `TypeError` (line 159), and the partially built result, made
of fresh links only, is discarded by the exception, so the check may be done
up front.  Since the loop allocates fresh links only, the copied payloads
are read from the incoming heap. -/
def getBuild (h : Heap α) (y0 : Nat) (rest : List (Option Nat)) :
    Except PyErr (Heap α × PyLinks) :=
  if rest.any Option.isNone then .error .typeErr
  else
    let items := rest.map (fun y =>
      match y with
      | some b => (nodeAt h b).item
      | none => none)
    let a0 := h.length
    let built := buildLoop (h ++ [⟨none, none, (nodeAt h y0).item⟩]) a0 1 items
    .ok (built.1, ⟨some a0, some built.2.1, (built.2.2 : Nat)⟩)

/-- `Links.__getitem__` slice path after anchor/target/step extraction
(lines 148–163).  The interleaving of generation and building is harmless —
the build only allocates fresh links, which `link_islice` never reads — so
the yields are collected eagerly and handed to `getBuild`. -/
def getSliceCore (h : Heap α) (length : Int) (anchor : Option Nat)
    (target0 step0 : Option Int) : Except PyErr (Heap α × PyLinks) :=
  match anchor with
  | none => .ok (h, emptyLinks)
  | some a =>
    let g := mkGen length (some a) target0 step0
    match genYields h g (genFuel g) with
    | [] => .ok (h, emptyLinks)
    | none :: _ => .error .typeErr
    | some y0 :: rest => getBuild h y0 rest

/-- `Links.__getitem__` with an integer-based slice (lines 140–163). -/
def getSliceIdx (h : Heap α) (s : PyLinks) (start stop step : Option Int) :
    Except PyErr (Heap α × PyLinks) := do
  let r ← sliceIndices start stop step s.length
  let anchor ← sliceAnchor h s r.1
  getSliceCore h s.length anchor (some (r.2.1 - r.1)) (some r.2.2)

/-- `Links.__getitem__` with a link-based slice (lines 138–139): `start` is
the link, `stop` a relative offset, `step` passed through untouched. -/
def getSliceLink (h : Heap α) (s : PyLinks) (a : Nat) (stop step : Option Int) :
    Except PyErr (Heap α × PyLinks) :=
  getSliceCore h s.length (some a) stop step

/-- Payload assignments of the extended-step branch (lines 221–222):
`link[2] = item` for each stored pair; a paired Python `None` link raises
`TypeError`. -/
def assignPairs (h : Heap α) : List (Option Nat × Option α) → Except PyErr (Heap α)
  | [] => .ok h
  | (none, _) :: _ => .error .typeErr
  | (some a, v) :: rest => assignPairs (h.set a { nodeAt h a with item := v }) rest

/-- Extended-step branch of `Links.__setitem__` (lines 208–222):
`pairs = list(zip(it, items))`, then `next(it)` / `next(items)` checks, then
the payload writes.  `zip` consumes one extra yield when the replacement
runs out first, so the subsequent `next(it)` only raises the length error
when the span exceeds the replacement by at least two; mutation happens only
after both checks pass.  No heap mutation occurs before the `pairs` list is
complete, so the yields are collected eagerly. -/
def setExt (h : Heap α) (s : PyLinks) (g : Gen) (items : List (Option α)) :
    Except PyErr (Heap α × PyLinks) :=
  let ys := genYields h g (genFuel g)
  if items.length + 1 < ys.length then .error .mismatchErr
  else if ys.length < items.length then .error .mismatchErr
  else (assignPairs h (ys.zip items)).map (fun h2 => (h2, s))

/-- The `for link, thing in zip(it, items): link[2] = thing` loop of the
unit-step branch (lines 196–197).  `zip` polls the generator first; when the
replacement runs out the polled link is dropped, and the generator state is
handed on to the leftover-unlink phase.  The loop writes payloads only, which
`link_islice` never reads, so resuming the generator against the updated
heap is faithful. -/
def zipAssign (h : Heap α) (g : Gen) : List (Option α) → Except PyErr (Heap α × Gen)
  | [] =>
    match isliceNext h g with
    | (none, g1) => .ok (h, g1)
    | (some _, g1) => .ok (h, g1)
  | v :: rest =>
    match isliceNext h g with
    | (none, g1) => .ok (h, g1)
    | (some none, _) => .error .typeErr
    | (some (some a), g1) => zipAssign (h.set a { nodeAt h a with item := v }) g1 rest

/-- The leftover-link phase of the unit-step branch (lines 198–207): read
`extralink[0]`/`[1]` (a Python `None` yield raises `TypeError`), null all
three fields, and resume the generator — which now reads the just-nulled
`next`/`prev` of its current link. -/
def extrasLoop (h : Heap α) (g : Gen) : Nat → Except PyErr (Heap α)
  | 0 => .ok h
  | fuel + 1 =>
    match isliceNext h g with
    | (none, _) => .ok h
    | (some none, _) => .error .typeErr
    | (some (some a), g1) => extrasLoop (h.set a ⟨none, none, none⟩) g1 fuel

/-- Unit-step branch of `Links.__setitem__` (lines 183–207), marked
`# TODO: finish implementing slice assignment` in the source.  The first
yield is bound to `link` and never written; an empty span falls into the
`StopIteration` handler, which for `step == 1` either sets `self.first` to a
fresh `Links(items)` chain (anchor with no predecessor) or calls
`self.extend(items, link)`, and for `step == -1` does nothing.  After the
handler the generator and (in those branches) the replacement iterator are
both exhausted, so the zip and leftover phases are no-ops. -/
def setUnit (h : Heap α) (s : PyLinks) (anchor : Option Nat) (g : Gen)
    (stp : Int) (items : List (Option α)) : Except PyErr (Heap α × PyLinks) :=
  match isliceNext h g with
  | (none, _) =>
    if stp = 1 then
      match anchor with
      | none => .error .typeErr
      | some la =>
        if (nodeAt h la).prev = none then
          let grown := linksNew h items
          if grown.2.length = 0 then .ok (grown.1, s)
          else .ok (grown.1, { s with first := grown.2.first })
        else .ok (extendOp h s items (some la))
    else .ok (h, s)
  | (some _, g1) =>
    match zipAssign h g1 items with
    | .error e => .error e
    | .ok (h2, g2) => (extrasLoop h2 g2 (genFuel g2)).map (fun h3 => (h3, s))

/-- `Links.__setitem__` slice path after anchor/target/step extraction
(lines 179–222). -/
def setSliceCore (h : Heap α) (s : PyLinks) (anchor : Option Nat)
    (target0 : Option Int) (stp : Int) (items : List (Option α)) :
    Except PyErr (Heap α × PyLinks) :=
  let g := mkGen s.length anchor target0 (some stp)
  if stp = 1 ∨ stp = -1 then setUnit h s anchor g stp items
  else setExt h s g items

/-- `Links.__setitem__` with an integer-based slice (lines 171–222). -/
def setSliceIdx (h : Heap α) (s : PyLinks) (start stop step : Option Int)
    (items : List (Option α)) : Except PyErr (Heap α × PyLinks) := do
  let r ← sliceIndices start stop step s.length
  let anchor ← sliceAnchor h s r.1
  setSliceCore h s anchor (some (r.2.1 - r.1)) r.2.2 items

/-- `Links.__setitem__` with a link-based slice (lines 169–170):
`step = idx.step or 1`, so both `None` *and* `0` silently become `1`. -/
def setSliceLink (h : Heap α) (s : PyLinks) (a : Nat) (stop step : Option Int)
    (items : List (Option α)) : Except PyErr (Heap α × PyLinks) :=
  let stp : Int :=
    match step with
    | none => 1
    | some v => if v = 0 then 1 else v
  setSliceCore h s (some a) stop stp items

/-- `Links.__iter__` (lines 73–78): walk `next` from a link, yielding
payloads.  The fuel only guards against heaps whose chain has been corrupted
into a cycle (where CPython would not terminate either); every state
examined below finishes before the fuel runs out. -/
def walkItems (h : Heap α) : Option Nat → Nat → List (Option α)
  | none, _ => []
  | some _, 0 => []
  | some a, fuel + 1 => (nodeAt h a).item :: walkItems h (nodeAt h a).next fuel

/-- `list(container)`. -/
def pyList (h : Heap α) (s : PyLinks) : List (Option α) :=
  walkItems h s.first (h.length + 1)

/-- The addresses visited by `Links.links()` (lines 259–264). -/
def walkAddrs (h : Heap α) : Option Nat → Nat → List Nat
  | none, _ => []
  | some _, 0 => []
  | some a, fuel + 1 => a :: walkAddrs h (nodeAt h a).next fuel

/-- The set of `Link` objects a container reaches. -/
def reachOf (h : Heap α) (s : PyLinks) : List Nat :=
  walkAddrs h s.first (h.length + 1)

/-- Follow `next` (`dir = true`) or `prev` `k` times, staying at Python
`None` once reached (used to state the null-termination invariant). -/
def followN (h : Heap α) (dir : Bool) : Option Nat → Nat → Option Nat
  | c, 0 => c
  | none, _ + 1 => none
  | some a, k + 1 =>
      followN h dir (if dir then (nodeAt h a).next else (nodeAt h a).prev) k

/-- Mutual consistency along a walk: whenever `a` is followed by `b`,
`b.prev == a`. -/
def adjacentOk (h : Heap α) : List Nat → Bool
  | a :: b :: rest => ((nodeAt h b).prev == some a) && adjacentOk h (b :: rest)
  | _ => true

/-- The structural invariants of the specification, as a decidable check:
`count == 0` iff `head` null iff `tail` null; `next` from head `count` times
is null and `prev` from tail `count` times is null; adjacent links mutually
consistent; `head.prev` and `tail.next` null when non-empty. -/
def invariantsHold (h : Heap α) (s : PyLinks) : Bool :=
  ((s.length == 0) == s.first.isNone) &&
  (s.first.isNone == s.last.isNone) &&
  (followN h true s.first s.length.toNat == none) &&
  (followN h false s.last s.length.toNat == none) &&
  adjacentOk h (reachOf h s) &&
  (match s.first with
   | none => true
   | some a => (nodeAt h a).prev == none) &&
  (match s.last with
   | none => true
   | some a => (nodeAt h a).next == none)

/-- Observe an operation's result as the container's item sequence. -/
def resultItems (r : Except PyErr (Heap α × PyLinks)) :
    Except PyErr (List (Option α)) :=
  r.map (fun p => pyList p.1 p.2)

/-- Observe an operation's result as the container's stored count. -/
def resultLen (r : Except PyErr (Heap α × PyLinks)) : Except PyErr Int :=
  r.map (fun p => p.2.length)

/-! ### Reference (ordered-sequence) semantics

The specification states the container's behaviour by comparison with an
"equivalent ordered reference sequence"; the following definitions are that
reference side, following Python's documented sequence semantics. -/

/-- Reference ordered-sequence indexing `seq[i]`: an element for
`-n ≤ i < n`, `IndexError` (here `none`) otherwise. -/
def refIndex (xs : List α) (i : Int) : Option α :=
  if 0 ≤ i then xs.get? i.toNat
  else if -(xs.length : Int) ≤ i then xs.get? (i + xs.length).toNat
  else none

/-- Non-negative-index lookup into the reference sequence. -/
def refGet (xs : List α) (i : Int) : Option α :=
  if 0 ≤ i then xs.get? i.toNat else none

/-- The number of indices of a slice with normalised bounds
(`⌈(stop-start)/step⌉`, clamped at 0). -/
def refSliceLen (st sp stp : Int) : Nat :=
  if 0 < stp then ((sp - st).toNat + (stp.toNat - 1)) / stp.toNat
  else ((st - sp).toNat + ((-stp).toNat - 1)) / (-stp).toNat

/-- The items selected by an ordered-sequence slice with normalised bounds:
`[seq[start + k*step] for k in range(slicelength)]`. -/
def refSliceItems (xs : List α) (st stp : Int) (len : Nat) : List (Option α) :=
  (List.range len).map (fun (k : Nat) => refGet xs (st + (k : Int) * stp))

/-- Reference ordered-sequence slicing `seq[start:stop:step]`, including the
`ValueError` for a zero step. -/
def refSliceFull (xs : List α) (start stop step : Option Int) :
    Except PyErr (List (Option α)) :=
  (sliceIndices start stop step xs.length).map
    (fun r => refSliceItems xs r.1 r.2.2 (refSliceLen r.1 r.2.1 r.2.2))

/-- Reference ordered-sequence unit-step slice assignment
`seq[st:sp] = repl` with already-normalised `0 ≤ st ≤ sp ≤ n`: the targeted
span is replaced by the replacement items. -/
def refSpliceAssign (xs : List α) (st sp : Nat) (repl : List α) : List α :=
  xs.take st ++ repl ++ xs.drop (max st sp)

/-- A `Links` *object*: its identity plus its state.  The class defines no
`__eq__`/`__ne__` (lines 37–79), so Python compares `Links` instances with
`object`'s default reference identity. -/
structure LinksObj where
  id : Nat
  state : PyLinks
deriving Repr, DecidableEq

/-- `a == b` on `Links` instances: default object identity. -/
def linksEq (a b : LinksObj) : Bool := a.id == b.id

/-! ### Canonical chain shape

`seg base p items` is the heap segment a chain-building loop produces when
allocation starts at address `base` and the first link's `prev` is `p`: the
closed form used to reason about containers built from a reference
sequence. -/

/-- Closed form of a freshly built chain occupying addresses
`base, base+1, …`. -/
def seg (base : Nat) (p : Option Nat) : List (Option α) → List (Node α)
  | [] => []
  | [x] => [⟨p, none, x⟩]
  | x :: y :: rest => ⟨p, some (base + 1), x⟩ :: seg (base + 1) (some base) (y :: rest)

/-- `prev` field of the `k`-th node of a segment. -/
def segPrev (base : Nat) (p : Option Nat) (k : Nat) : Option Nat :=
  if k = 0 then p else some (base + k - 1)

/-- `next` field of the `k`-th node of a segment of `m` nodes. -/
def segNext (base m k : Nat) : Option Nat :=
  if k + 1 = m then none else some (base + k + 1)

/-- The heap of a container built from the reference sequence `xs`. -/
def canonHeap (xs : List α) : Heap α := seg 0 none (xs.map some)

/-- The state of a container built from the reference sequence `xs`. -/
def canonLinks (xs : List α) : PyLinks :=
  if xs.isEmpty then emptyLinks
  else ⟨some 0, some (xs.length - 1), (xs.length : Int)⟩

/-- `h` holds, at addresses `base, …, base + items.length - 1`, a chain of
the shape a chain-building loop produces: the first node's `prev` is `p`,
the last node's `next` is `none`, interior nodes point at their
neighbours. -/
def chainAt (h : Heap α) (base : Nat) (p : Option Nat) (items : List (Option α)) : Prop :=
  ∀ k x, items.get? k = some x →
    nodeAt h (base + k) = ⟨segPrev base p k, segNext base items.length k, x⟩

/-! ### Heap access lemmas -/

theorem nodeAt_getElem? (h : Heap α) (a : Nat) :
    nodeAt h a = (h[a]?).getD ⟨none, none, none⟩ := by
  unfold nodeAt
  rw [List.getD_eq_getElem?_getD]

theorem nodeAt_append_left {h h2 : Heap α} {a : Nat} (ha : a < h.length) :
    nodeAt (h ++ h2) a = nodeAt h a := by
  rw [nodeAt_getElem?, nodeAt_getElem?, List.getElem?_append_left ha]

theorem nodeAt_append_right {h h2 : Heap α} {a : Nat} (ha : h.length ≤ a) :
    nodeAt (h ++ h2) a = nodeAt h2 (a - h.length) := by
  rw [nodeAt_getElem?, nodeAt_getElem?, List.getElem?_append_right ha]

theorem nodeAt_set_ne {h : Heap α} {a b : Nat} (nd : Node α) (hab : a ≠ b) :
    nodeAt (h.set a nd) b = nodeAt h b := by
  rw [nodeAt_getElem?, nodeAt_getElem?, List.getElem?_set_ne hab]

theorem nodeAt_set_eq {h : Heap α} {a : Nat} (nd : Node α) (ha : a < h.length) :
    nodeAt (h.set a nd) a = nd := by
  rw [nodeAt_getElem?]
  simp [List.getElem?_set, ha]

theorem set_nodeAt_self {h : Heap α} {a : Nat} {nd : Node α}
    (ha : h[a]? = some nd) : h.set a nd = h := by
  apply List.ext_getElem?
  intro i
  rcases eq_or_ne a i with rfl | hne
  · have hlt : a < h.length := (List.getElem?_eq_some.mp ha).1
    simp [List.getElem?_set, hlt, ha]
  · rw [List.getElem?_set_ne hne]

/-! ### Segment lemmas -/

theorem seg_length (items : List (Option α)) :
    ∀ base p, (seg base p items : Heap α).length = items.length := by
  induction items with
  | nil => intro base p; rfl
  | cons x rest ih =>
    intro base p
    cases rest with
    | nil => rfl
    | cons y rest' =>
      simp only [seg, List.length_cons]
      rw [ih (base + 1) (some base)]
      simp

theorem segPrev_succ (base : Nat) (p : Option Nat) (k : Nat) :
    segPrev (base + 1) (some base) k = segPrev base p (k + 1) := by
  unfold segPrev
  cases k with
  | zero => simp
  | succ j => simp; omega

theorem segNext_succ (base m k : Nat) :
    segNext (base + 1) (m + 1) k = segNext base (m + 2) (k + 1) := by
  unfold segNext
  rcases eq_or_ne (k + 1) (m + 1) with he | hne
  · simp [he]
  · have h2 : k + 1 + 1 ≠ m + 2 := by omega
    simp [hne, h2]
    omega

theorem seg_getElem? (items : List (Option α)) :
    ∀ base p k x, items.get? k = some x →
      (seg base p items : Heap α)[k]? =
        some ⟨segPrev base p k, segNext base items.length k, x⟩ := by
  induction items with
  | nil => intro base p k x hx; simp at hx
  | cons a rest ih =>
    intro base p k x hx
    cases rest with
    | nil =>
      cases k with
      | zero =>
        simp only [List.get?_cons_zero, Option.some.injEq] at hx
        subst hx
        simp [seg, segPrev, segNext]
      | succ k' => simp at hx
    | cons b rest' =>
      cases k with
      | zero =>
        simp only [List.get?_cons_zero, Option.some.injEq] at hx
        subst hx
        have hne : (0 : Nat) + 1 ≠ rest'.length + 2 := by omega
        simp [seg, segPrev, segNext, hne]
      | succ k' =>
        have hx' : (b :: rest').get? k' = some x := hx
        have := ih (base + 1) (some base) k' x hx'
        simp only [seg, List.getElem?_cons_succ]
        rw [this, segPrev_succ base p k']
        have hlen : (b :: rest').length = rest'.length + 1 := rfl
        have hlen2 : (a :: b :: rest').length = rest'.length + 2 := rfl
        rw [hlen, hlen2, segNext_succ base rest'.length k']

theorem chainAt_seg_zero (items : List (Option α)) (p : Option Nat) :
    chainAt (seg 0 p items : Heap α) 0 p items := by
  intro k x hx
  rw [nodeAt_getElem?, Nat.zero_add, seg_getElem? items 0 p k x hx]
  rfl

theorem chainAt_append_seg (H : Heap α) (items : List (Option α)) (p : Option Nat) :
    chainAt (H ++ seg H.length p items) H.length p items := by
  intro k x hx
  have hr : H.length ≤ H.length + k := by omega
  rw [nodeAt_append_right hr, Nat.add_sub_cancel_left, nodeAt_getElem?,
    seg_getElem? items H.length p k x hx]
  rfl

theorem chainAt_mono_append {h : Heap α} {base : Nat} {p : Option Nat}
    {items : List (Option α)} (hlen : base + items.length ≤ h.length)
    (hc : chainAt h base p items) (h2 : Heap α) :
    chainAt (h ++ h2) base p items := by
  intro k x hx
  have hk : k < items.length := (List.get?_eq_some.mp hx).1
  rw [nodeAt_append_left (by omega)]
  exact hc k x hx

theorem chainAt_canon (xs : List α) :
    chainAt (canonHeap xs) 0 none (xs.map some) :=
  chainAt_seg_zero (xs.map some) none

theorem canonHeap_length (xs : List α) : (canonHeap xs).length = xs.length := by
  unfold canonHeap
  rw [seg_length, List.length_map]

/-! ### Walking a chain -/

theorem hopChain_none (h : Heap α) (dir : Bool) (k : Nat) :
    hopChain h dir none k = if k = 0 then some none else none := by
  cases k with
  | zero => rfl
  | succ k' => rfl

theorem hopChain_chain_fwd {h : Heap α} {base : Nat} {p : Option Nat}
    {items : List (Option α)} (hc : chainAt h base p items) :
    ∀ (k a : Nat), a < items.length →
      hopChain h true (some (base + a)) k =
        if a + k < items.length then some (some (base + a + k))
        else if a + k = items.length then some none
        else none := by
  intro k
  induction k with
  | zero =>
    intro a ha
    simp [hopChain, ha]
  | succ k' ih =>
    intro a ha
    have hx := List.get?_eq_get (l := items) ha
    have hnode := hc a (items.get ⟨a, ha⟩) hx
    show hopChain h true (if true then (nodeAt h (base + a)).next else _) k' = _
    rw [if_pos rfl, hnode]
    show hopChain h true (segNext base items.length a) k' = _
    unfold segNext
    rcases eq_or_ne (a + 1) items.length with he | hne
    · rw [if_pos he, hopChain_none]
      rcases Nat.eq_zero_or_pos k' with rfl | hk'
      · simp [he]
      · have h1 : ¬(a + (k' + 1) < items.length) := by omega
        have h2 : ¬(a + (k' + 1) = items.length) := by omega
        simp [h1, h2, Nat.pos_iff_ne_zero.mp hk']
    · rw [if_neg hne]
      have ha1 : a + 1 < items.length := by omega
      have := ih (a + 1) ha1
      rw [show base + a + 1 = base + (a + 1) from by omega, this]
      have e1 : a + 1 + k' = a + (k' + 1) := by omega
      have e2 : base + (a + 1) + k' = base + a + (k' + 1) := by omega
      rw [e1, e2]

theorem hopChain_chain_bwd {h : Heap α} {base : Nat}
    {items : List (Option α)} (hc : chainAt h base none items) :
    ∀ (k a : Nat), a < items.length →
      hopChain h false (some (base + a)) k =
        if k ≤ a then some (some (base + (a - k)))
        else if k = a + 1 then some none
        else none := by
  intro k
  induction k with
  | zero =>
    intro a ha
    simp [hopChain]
  | succ k' ih =>
    intro a ha
    have hx := List.get?_eq_get (l := items) ha
    have hnode := hc a (items.get ⟨a, ha⟩) hx
    show hopChain h false (if false then _ else (nodeAt h (base + a)).prev) k' = _
    rw [if_neg (by simp), hnode]
    show hopChain h false (segPrev base none a) k' = _
    unfold segPrev
    cases a with
    | zero =>
      rw [if_pos rfl, hopChain_none]
      rcases Nat.eq_zero_or_pos k' with rfl | hk'
      · simp
      · have h1 : ¬(k' + 1 ≤ 0) := by omega
        have h2 : ¬(k' + 1 = 0 + 1) := by omega
        simp [h1, h2, Nat.pos_iff_ne_zero.mp hk']
    | succ j =>
      rw [if_neg (by omega)]
      have hj : j < items.length := by omega
      have e0 : base + (j + 1) - 1 = base + j := by omega
      rw [e0, ih j hj]
      rcases Nat.lt_or_ge k' (j + 1) with hlt | hge
      · have h1 : k' ≤ j := by omega
        have h2 : k' + 1 ≤ j + 1 := by omega
        have e1 : j + 1 - (k' + 1) = j - k' := by omega
        simp [h1, h2, e1]
      · have h1 : ¬(k' ≤ j) := by omega
        have h2 : ¬(k' + 1 ≤ j + 1) := by omega
        have h3 : (k' = j + 1) ↔ (k' + 1 = j + 1 + 1) := by omega
        simp only [if_neg h1, if_neg h2]
        rcases eq_or_ne k' (j + 1) with he | hne
        · simp [he]
        · have hne2 : k' + 1 ≠ j + 1 + 1 := by omega
          simp [hne, hne2]

theorem rshift_zero (h : Heap α) (a : Nat) : rshift h a 0 = some a := rfl

theorem rshift_chain_fwd {h : Heap α} {base : Nat} {p : Option Nat}
    {items : List (Option α)} (hc : chainAt h base p items)
    {a : Nat} (ha : a < items.length) {amt : Int} (hpos : 0 < amt) :
    rshift h (base + a) amt =
      if a + amt.toNat < items.length then some (base + a + amt.toNat) else none := by
  have e : amt.natAbs = amt.toNat := by omega
  unfold rshift
  rw [decide_eq_true hpos, hopChain_chain_fwd hc amt.natAbs a ha, e]
  rcases Nat.lt_or_ge (a + amt.toNat) items.length with hlt | hge
  · simp [hlt]
  · rcases eq_or_ne (a + amt.toNat) items.length with heq | hne
    · simp [heq, Nat.not_lt.mpr hge]
    · simp [Nat.not_lt.mpr hge, hne]

theorem rshift_chain_bwd {h : Heap α} {base : Nat}
    {items : List (Option α)} (hc : chainAt h base none items)
    {a : Nat} (ha : a < items.length) {amt : Int} (hneg : amt < 0) :
    rshift h (base + a) amt =
      if amt.natAbs ≤ a then some (base + (a - amt.natAbs)) else none := by
  have hd : decide (0 < amt) = false := by simp; omega
  unfold rshift
  rw [hd, hopChain_chain_bwd hc amt.natAbs a ha]
  rcases le_or_lt amt.natAbs a with hle | hgt
  · simp [hle]
  · rcases eq_or_ne amt.natAbs (a + 1) with heq | hne
    · simp [heq, Nat.not_le.mpr hgt]
    · simp [Nat.not_le.mpr hgt, hne]

/-! ### Characterising the chain builder and the constructor -/

theorem set_append_head (H tail : Heap α) (nd : Node α) :
    (H ++ tail).set H.length nd = H ++ tail.set 0 nd := by
  rw [List.set_append, if_neg (by omega), Nat.sub_self]

theorem buildLoop_spec (rest : List (Option α)) :
    ∀ (H : Heap α) (p : Option Nat) (x : Option α) (n : Nat),
      buildLoop (H ++ [⟨p, none, x⟩]) H.length n rest =
        (H ++ seg H.length p (x :: rest), H.length + rest.length, n + rest.length) := by
  induction rest with
  | nil =>
    intro H p x n
    simp [buildLoop, seg]
  | cons v rest' ih =>
    intro H p x n
    have hB : ((H ++ [(⟨p, none, x⟩ : Node α)]) ++ [(⟨some H.length, none, v⟩ : Node α)]) = H ++ ([(⟨p, none, x⟩ : Node α)] ++ [(⟨some H.length, none, v⟩ : Node α)]) := by
      rw [List.append_assoc]
    have hlen : (H ++ [(⟨p, none, x⟩ : Node α)]).length = H.length + 1 := by simp
    have hmid : nodeAt (H ++ ([(⟨p, none, x⟩ : Node α)] ++ [(⟨some H.length, none, v⟩ : Node α)])) H.length = (⟨p, none, x⟩ : Node α) := by
      rw [nodeAt_append_right (le_refl _), Nat.sub_self]
      rfl
    have hset : (H ++ ([(⟨p, none, x⟩ : Node α)] ++ [(⟨some H.length, none, v⟩ : Node α)])).set H.length (⟨p, some (H.length + 1), x⟩ : Node α)
        = (H ++ [(⟨p, some (H.length + 1), x⟩ : Node α)]) ++ [(⟨some H.length, none, v⟩ : Node α)] := by
      rw [set_append_head, List.append_assoc]
      rfl
    show buildLoop _ _ _ (v :: rest') = _
    simp only [buildLoop, hlen, hB, hmid, hset]
    have ih2 := ih (H ++ [(⟨p, some (H.length + 1), x⟩ : Node α)]) (some H.length) v (n + 1)
    have hlen2 : (H ++ [(⟨p, some (H.length + 1), x⟩ : Node α)]).length = H.length + 1 := by simp
    rw [hlen2] at ih2
    rw [ih2]
    have hseg : (H ++ [(⟨p, some (H.length + 1), x⟩ : Node α)]) ++ seg (H.length + 1) (some H.length) (v :: rest')
        = H ++ seg H.length p (x :: v :: rest') := by
      rw [List.append_assoc]
      rfl
    rw [hseg]
    have e1 : H.length + 1 + rest'.length = H.length + (v :: rest').length := by
      simp
      omega
    have e2 : n + 1 + rest'.length = n + (v :: rest').length := by
      simp
      omega
    rw [e1, e2]

theorem insertAt_nil (h : Heap α) (s : PyLinks) (link : Option Nat) :
    insertAt h s link [] = (h, s) := rfl

theorem insertAt_empty_cons (h : Heap α) (x : Option α) (rest : List (Option α)) :
    insertAt h emptyLinks none (x :: rest) =
      (h ++ seg h.length none (x :: rest),
       ⟨some h.length, some (h.length + rest.length), ((1 + rest.length : Nat) : Int)⟩) := by
  show insertAt h emptyLinks none (x :: rest) = _
  unfold insertAt
  simp only [buildLoop_spec rest h none x 1, emptyLinks]
  have hnode : (h ++ seg h.length none (x :: rest))[h.length]? =
      some ⟨none, segNext h.length (x :: rest).length 0, x⟩ := by
    rw [List.getElem?_append_right (le_refl _), Nat.sub_self,
      seg_getElem? (x :: rest) h.length none 0 x rfl]
    rfl
  have hAt : nodeAt (h ++ seg h.length none (x :: rest)) h.length =
      ⟨none, segNext h.length (x :: rest).length 0, x⟩ := by
    rw [nodeAt_getElem?, hnode]
    rfl
  simp only [hAt]
  rw [set_nodeAt_self hnode]

theorem mkLinks_eq (xs : List α) : mkLinks xs = (canonHeap xs, canonLinks xs) := by
  cases xs with
  | nil => rfl
  | cons x rest =>
    show insertAt [] emptyLinks none (some x :: rest.map some) = _
    rw [insertAt_empty_cons]
    unfold canonHeap canonLinks
    simp [seg, emptyLinks]
    omega

/-! ### Index resolution on a container built from a reference sequence -/

theorem map_some_get? (xs : List α) (k : Nat) :
    (xs.map some).get? k = (xs.get? k).map some := by
  simp [List.get?_eq_getElem?]

theorem canon_item {xs : List α} {k : Nat} {v : α} (hk : xs.get? k = some v) :
    (nodeAt (canonHeap xs) k).item = some v := by
  have hm : (xs.map some).get? k = some (some v) := by
    rw [map_some_get?, hk]
    rfl
  have := chainAt_canon xs k (some v) hm
  rw [show (0 + k) = k from by omega] at this
  rw [this]

theorem callIdx_canon_posi {xs : List α} (hlen : 0 < xs.length) {i : Int} (hi : 0 ≤ i) :
    callIdx (canonHeap xs) (canonLinks xs) i =
      if i < (xs.length : Int) then .ok i.toNat else .error .indexErr := by
  have hfirst : (canonLinks xs).first = some 0 := by
    unfold canonLinks
    rw [if_neg (by simp [List.isEmpty_iff]; intro he; rw [he] at hlen; simp at hlen)]
  have hm : (xs.map some).length = xs.length := by simp
  unfold callIdx
  rw [hfirst]
  simp only [if_pos hi]
  rcases eq_or_lt_of_le hi with heq | hpos
  · have : i = 0 := heq.symm
    subst this
    rw [rshift_zero]
    simp [hlen]
  · have hr := rshift_chain_fwd (a := 0) (chainAt_canon xs)
      (by rw [hm]; exact hlen) hpos
    rw [show (0 + 0 : Nat) = 0 from rfl, hm] at hr
    rw [hr]
    rcases Nat.lt_or_ge (0 + i.toNat) xs.length with hlt | hge
    · rw [if_pos hlt, if_pos (by omega)]
      simp
    · rw [if_neg (by omega), if_neg (by omega)]

theorem callIdx_canon_negi {xs : List α} (hlen : 0 < xs.length) {i : Int} (hi : i < 0) :
    callIdx (canonHeap xs) (canonLinks xs) i =
      if -(xs.length : Int) ≤ i then .ok (i + xs.length).toNat
      else .error .indexErr := by
  have hlast : (canonLinks xs).last = some (xs.length - 1) := by
    unfold canonLinks
    rw [if_neg (by simp [List.isEmpty_iff]; intro he; rw [he] at hlen; simp at hlen)]
  have hm : (xs.map some).length = xs.length := by simp
  unfold callIdx
  rw [hlast]
  simp only [if_neg (by omega : ¬(0 ≤ i))]
  rcases eq_or_ne i (-1) with heq | hne
  · subst heq
    show (match rshift (canonHeap xs) (xs.length - 1) (-1 + 1) with
      | some a => Except.ok a
      | none => Except.error PyErr.indexErr) = _
    rw [show (-1 + 1 : Int) = 0 from by omega, rshift_zero]
    rw [if_pos (by omega)]
    have e : ((-1 : Int) + xs.length).toNat = xs.length - 1 := by omega
    rw [e]
  · have hneg : i + 1 < 0 := by omega
    have hr := rshift_chain_bwd (a := xs.length - 1) (chainAt_canon xs)
      (by rw [hm]; omega) hneg
    rw [show (0 + (xs.length - 1) : Nat) = xs.length - 1 from by omega] at hr
    rw [hr]
    rcases Nat.lt_or_ge (xs.length - 1) (i + 1).natAbs with hgt | hle
    · rw [if_neg (by omega), if_neg (by omega)]
    · rw [if_pos (by omega), if_pos (by omega)]
      have e : 0 + (xs.length - 1 - (i + 1).natAbs) = (i + xs.length).toNat := by omega
      rw [e]

/-- C6: on a container built from any reference sequence (including the
empty one), integer indexing `container[i]` returns `referenceSequence[i]`
whenever `-n ≤ i < n`, and raises an `IndexError`-kind error for every `i`
outside `[-n, n)`. -/
theorem c6_integer_indexing (xs : List α) (i : Int) :
    getItemInt (mkLinks xs).1 (mkLinks xs).2 i =
      match refIndex xs i with
      | some v => .ok (some v)
      | none => .error .indexErr := by
  have hmk := mkLinks_eq xs
  rw [hmk]
  show getItemInt (canonHeap xs) (canonLinks xs) i = _
  rcases Nat.eq_zero_or_pos xs.length with hz | hlen
  · have hxs : xs = [] := List.length_eq_zero.mp hz
    subst hxs
    show getItemInt ([] : Heap α) emptyLinks i = _
    unfold getItemInt callIdx refIndex
    rcases le_or_lt 0 i with hi | hi
    · simp [emptyLinks, hi, Except.map]
    · simp [emptyLinks, hi, Int.not_le.mpr hi, Except.map]
  · unfold getItemInt
    rcases le_or_lt 0 i with hi | hi
    · rw [callIdx_canon_posi hlen hi]
      rcases lt_or_le i (xs.length : Int) with hin | hout
      · rw [if_pos hin]
        have hk : i.toNat < xs.length := by omega
        have hv := List.get?_eq_get (l := xs) hk
        unfold refIndex
        rw [if_pos hi, hv]
        show Except.ok (nodeAt (canonHeap xs) i.toNat).item = _
        rw [canon_item hv]
      · rw [if_neg (by omega)]
        unfold refIndex
        rw [if_pos hi, List.get?_eq_none.mpr (by omega)]
        rfl
    · rw [callIdx_canon_negi hlen hi]
      rcases le_or_lt (-(xs.length : Int)) i with hin | hout
      · rw [if_pos hin]
        have hk : (i + xs.length).toNat < xs.length := by omega
        have hv := List.get?_eq_get (l := xs) hk
        unfold refIndex
        rw [if_neg (by omega), if_pos hin, hv]
        show Except.ok (nodeAt (canonHeap xs) (i + xs.length).toNat).item = _
        rw [canon_item hv]
      · rw [if_neg (by omega)]
        unfold refIndex
        rw [if_neg (by omega), if_neg (by omega)]
        rfl

/-! ### Claim C1 (unit-step slice assignment) -/

/-- C1: the unit-step slice assignment is the source's unfinished `TODO`
branch and does *not* match ordered-sequence slice assignment.  Concretely,
`Links([1,2])[0:1] = [9]` leaves the container at `[1, 2]` (the single
targeted link is consumed by the stray `link = next(it)` and never written),
while the ordered-sequence reference assignment yields `[9, 2]`. -/
theorem c1_unit_assignment_eval :
    resultItems (setSliceIdx (mkLinks [(1 : Nat), 2]).1 (mkLinks [(1 : Nat), 2]).2
        (some 0) (some 1) (some 1) [some 9]) = .ok [some 1, some 2]
    ∧ resultLen (setSliceIdx (mkLinks [(1 : Nat), 2]).1 (mkLinks [(1 : Nat), 2]).2
        (some 0) (some 1) (some 1) [some 9]) = .ok 2
    ∧ refSpliceAssign [(1 : Nat), 2] 0 1 [9] = [9, 2] := by
  decide

/-! ### Claim C2 (extended-step length check) -/

/-- C2: when the targeted span (here `[0:5:2]`, 3 links) exceeds the
replacement (2 items) by exactly one, `zip` has already consumed the extra
link, the `next(it)` length check passes, no error is raised, and the first
two span payloads are overwritten: the container becomes `[9,1,8,3,4]`
instead of staying unchanged with a `ValueError`-kind failure. -/
theorem c2_extended_mismatch_eval :
    refSliceLen 0 5 2 = 3
    ∧ resultItems (setSliceIdx (mkLinks [(0 : Nat), 1, 2, 3, 4]).1
        (mkLinks [(0 : Nat), 1, 2, 3, 4]).2 (some 0) (some 5) (some 2)
        [some 9, some 8]) = .ok [some 9, some 1, some 8, some 3, some 4] := by
  decide

/-! ### Claim C3 (length bookkeeping) -/

/-- C3: extending a non-empty container at the end falls through `insert`'s
missing `else` (lines 344–357): `Links([1,2]).extend([3])` leaves `_length`
at 1 — not `n + k = 3` — and the list iterates as `[3]`. -/
theorem c3_extend_count_eval :
    (mkLinks [(1 : Nat), 2]).2.length = 2
    ∧ (extendOp (mkLinks [(1 : Nat), 2]).1 (mkLinks [(1 : Nat), 2]).2
        [some 3] none).2.length = 1
    ∧ pyList (extendOp (mkLinks [(1 : Nat), 2]).1 (mkLinks [(1 : Nat), 2]).2
          [some 3] none).1
        (extendOp (mkLinks [(1 : Nat), 2]).1 (mkLinks [(1 : Nat), 2]).2
          [some 3] none).2 = [some 3] := by
  decide

/-! ### Claim C4 (structural invariants) -/

/-- C4: the same `extend` on a non-empty container breaks the structural
invariants: afterwards `head = tail` is the fresh link whose `prev` still
points at the old tail, so `prev` from the tail does not reach null in
`count` steps and `head.prev ≠ null` although the container is
non-empty. -/
theorem c4_invariants_eval :
    invariantsHold (mkLinks [(1 : Nat), 2]).1 (mkLinks [(1 : Nat), 2]).2 = true
    ∧ invariantsHold
        (extendOp (mkLinks [(1 : Nat), 2]).1 (mkLinks [(1 : Nat), 2]).2
          [some 3] none).1
        (extendOp (mkLinks [(1 : Nat), 2]).1 (mkLinks [(1 : Nat), 2]).2
          [some 3] none).2 = false := by
  decide

/-! ### Claim C10 (clear versus pop) -/

/-- C10: `clear` on `Links([1,2,3])` nulls only the *first* link's fields —
the `links()` generator reads the just-nulled `next` and stops — so the
second and third links keep their payloads (and pointers) readable; `pop`
nulls the popped link's `prev`/`next` but leaves its item readable. -/
theorem c10_clear_eval :
    (clearOp (mkLinks [(1 : Nat), 2, 3]).1 (mkLinks [(1 : Nat), 2, 3]).2).2 = emptyLinks
    ∧ nodeAt (clearOp (mkLinks [(1 : Nat), 2, 3]).1 (mkLinks [(1 : Nat), 2, 3]).2).1 0
        = ⟨none, none, none⟩
    ∧ nodeAt (clearOp (mkLinks [(1 : Nat), 2, 3]).1 (mkLinks [(1 : Nat), 2, 3]).2).1 1
        = ⟨some 0, some 2, some 2⟩
    ∧ nodeAt (clearOp (mkLinks [(1 : Nat), 2, 3]).1 (mkLinks [(1 : Nat), 2, 3]).2).1 2
        = ⟨some 1, none, some 3⟩
    ∧ (popOp (mkLinks [(1 : Nat), 2]).1 (mkLinks [(1 : Nat), 2]).2 .noLink).map
        (fun r => nodeAt r.1 r.2.2) = .ok ⟨none, none, some 2⟩ := by
  decide

/-! ### Claim C7 (zero step) -/

/-- C7 counterexample: a link-based slice read with step `0` is *not*
rejected: on `Links([10,20,30])`, `container[first_link:2:0]` silently uses
step `1` (per `link_islice`'s own docstring) and returns `[10, 20]`. -/
theorem c7_counterexample :
    resultItems (getSliceLink (mkLinks [(10 : Nat), 20, 30]).1
        (mkLinks [(10 : Nat), 20, 30]).2 0 (some 2) (some 0))
      = .ok [some 10, some 20] := by
  decide

/-- C7 amended: a zero step is rejected with `ValueError` only in
*index-based* addressing (via `slice.indices`); in link-based addressing a
zero step is silently coerced — reads treat it exactly like an omitted step
(`link_islice` substitutes `sign(target)`), writes replace it by `1`
(`idx.step or 1`). -/
theorem c7_step_zero_amended :
    (∀ (h : Heap α) (s : PyLinks) (start stop : Option Int) (items : List (Option α)),
      getSliceIdx h s start stop (some 0) = .error .valueErr
      ∧ setSliceIdx h s start stop (some 0) items = .error .valueErr)
    ∧ (∀ (h : Heap α) (s : PyLinks) (a : Nat) (stop : Option Int),
        getSliceLink h s a stop (some 0) = getSliceLink h s a stop none)
    ∧ (∀ (h : Heap α) (s : PyLinks) (a : Nat) (stop : Option Int)
        (items : List (Option α)),
        setSliceLink h s a stop (some 0) items = setSliceLink h s a stop none items) := by
  refine ⟨fun h s start stop items => ⟨rfl, rfl⟩, fun h s a stop => ?_, fun h s a stop items => ?_⟩
  · unfold getSliceLink getSliceCore mkGen
    simp
  · unfold setSliceLink
    simp

/-! ### Claim C8 (container equality) -/

/-- C8 counterexample: two separately constructed containers, both holding
the single item `1` (equal lengths, pairwise-equal items), compare unequal:
`Links` defines no `__eq__`, so `==` is reference identity. -/
theorem c8_counterexample :
    (linksNew (mkLinks [(1 : Nat)]).1 [some 1]).2.length = (mkLinks [(1 : Nat)]).2.length
    ∧ pyList (linksNew (mkLinks [(1 : Nat)]).1 [some 1]).1
        (linksNew (mkLinks [(1 : Nat)]).1 [some 1]).2
      = pyList (linksNew (mkLinks [(1 : Nat)]).1 [some 1]).1 (mkLinks [(1 : Nat)]).2
    ∧ linksEq ⟨0, (mkLinks [(1 : Nat)]).2⟩
        ⟨1, (linksNew (mkLinks [(1 : Nat)]).1 [some 1]).2⟩ = false := by
  decide

/-- C8 amended: equality comparison on containers is object identity — every
container equals itself, and two container objects compare equal exactly
when they are the same object, independently of length or items. -/
theorem c8_identity_equality (a b : LinksObj) :
    linksEq a a = true ∧ (linksEq a b = true ↔ a.id = b.id) := by
  refine ⟨by simp [linksEq], by simp [linksEq]⟩

/-! ### Walking and reachability on a chain region -/

theorem walkItems_chain {h : Heap α} {base : Nat} {p : Option Nat}
    {items : List (Option α)} (hc : chainAt h base p items) :
    ∀ (fuel a : Nat), a < items.length → items.length - a ≤ fuel →
      walkItems h (some (base + a)) fuel = items.drop a := by
  intro fuel
  induction fuel with
  | zero => intro a ha hf; omega
  | succ f ih =>
    intro a ha hf
    have hv := List.get?_eq_get (l := items) ha
    have hnode := hc a (items.get ⟨a, ha⟩) hv
    show (nodeAt h (base + a)).item :: walkItems h (nodeAt h (base + a)).next f = _
    rw [hnode]
    show items.get ⟨a, ha⟩ :: walkItems h (segNext base items.length a) f = _
    rw [List.drop_eq_getElem_cons ha]
    unfold segNext
    rcases eq_or_ne (a + 1) items.length with he | hne
    · rw [if_pos he]
      have hd : List.drop (a + 1) items = [] := List.drop_eq_nil_of_le (by omega)
      rw [hd]
      simp [walkItems, List.get_eq_getElem]
    · rw [if_neg hne]
      have ha1 : a + 1 < items.length := by omega
      rw [show base + a + 1 = base + (a + 1) from by omega, ih (a + 1) ha1 (by omega)]
      rw [List.get_eq_getElem]

theorem walkAddrs_chain {h : Heap α} {base : Nat} {p : Option Nat}
    {items : List (Option α)} (hc : chainAt h base p items) :
    ∀ (fuel a : Nat), a < items.length → items.length - a ≤ fuel →
      walkAddrs h (some (base + a)) fuel =
        (List.range (items.length - a)).map (fun k => base + a + k) := by
  intro fuel
  induction fuel with
  | zero => intro a ha hf; omega
  | succ f ih =>
    intro a ha hf
    have hv := List.get?_eq_get (l := items) ha
    have hnode := hc a (items.get ⟨a, ha⟩) hv
    show (base + a) :: walkAddrs h (nodeAt h (base + a)).next f = _
    rw [hnode]
    show (base + a) :: walkAddrs h (segNext base items.length a) f = _
    have hlen : items.length - a = (items.length - (a + 1)) + 1 := by omega
    rw [hlen, List.range_succ_eq_map, List.map_cons]
    have htail : walkAddrs h (segNext base items.length a) f =
        ((List.range (items.length - (a + 1))).map Nat.succ).map
          (fun k => base + a + k) := by
      unfold segNext
      rcases eq_or_ne (a + 1) items.length with he | hne
      · rw [if_pos he]
        have h0 : items.length - (a + 1) = 0 := by omega
        rw [h0]
        simp [walkAddrs]
      · rw [if_neg hne]
        have ha1 : a + 1 < items.length := by omega
        rw [show base + a + 1 = base + (a + 1) from by omega, ih (a + 1) ha1 (by omega),
          List.map_map]
        apply List.map_congr_left
        intro k _
        show base + (a + 1) + k = base + a + (k + 1)
        omega
    rw [htail]
    rfl

theorem chainAt_set_out {h : Heap α} {base : Nat} {p : Option Nat}
    {items : List (Option α)} (hc : chainAt h base p items) {b : Nat}
    (hb : b < base ∨ base + items.length ≤ b) (nd : Node α) :
    chainAt (h.set b nd) base p items := by
  intro k x hx
  have hk : k < items.length := (List.get?_eq_some.mp hx).1
  rw [nodeAt_set_ne nd (by omega)]
  exact hc k x hx

/-! ### Generator stepping facts -/

theorem genYields_done (h : Heap α) (l : Option Nat) (c t s : Int) (fuel : Nat) :
    genYields h ⟨.done, l, c, t, s⟩ fuel = [] := by
  cases fuel with
  | zero => rfl
  | succ f => rfl

theorem isliceNext_initial (h : Heap α) (l : Option Nat) (c t s : Int) :
    isliceNext h ⟨.initial, l, c, t, s⟩ = (some l, ⟨.running, l, s, t, s⟩) := rfl

theorem isliceNext_pos_stop {h : Heap α} {l : Option Nat} {cur t s : Int}
    (hs : 0 < s) (hstop : t ≤ cur) :
    isliceNext h ⟨.running, l, cur, t, s⟩ = (none, ⟨.done, l, cur, t, s⟩) := by
  unfold isliceNext
  simp [hs, Int.not_lt.mpr hstop]

theorem isliceNext_pos_adv {h : Heap α} {l : Option Nat} {cur t s : Int}
    (hs : 0 < s) (hcur : cur < t) :
    isliceNext h ⟨.running, l, cur, t, s⟩ =
      match hopChain h true l s.natAbs with
      | none => (none, ⟨.done, l, cur, t, s⟩)
      | some l2 => (some l2, ⟨.running, l2, cur + s, t, s⟩) := by
  unfold isliceNext
  simp [hs, hcur]

theorem isliceNext_neg_stop {h : Heap α} {l : Option Nat} {cur t s : Int}
    (hs : s < 0) (hstop : cur ≤ t) :
    isliceNext h ⟨.running, l, cur, t, s⟩ = (none, ⟨.done, l, cur, t, s⟩) := by
  unfold isliceNext
  simp [Int.not_lt.mpr (le_of_lt hs), Int.not_lt.mpr hstop]

theorem isliceNext_neg_adv {h : Heap α} {l : Option Nat} {cur t s : Int}
    (hs : s < 0) (hcur : t < cur) :
    isliceNext h ⟨.running, l, cur, t, s⟩ =
      match hopChain h false l s.natAbs with
      | none => (none, ⟨.done, l, cur, t, s⟩)
      | some l2 => (some l2, ⟨.running, l2, cur + s, t, s⟩) := by
  unfold isliceNext
  simp [Int.not_lt.mpr (le_of_lt hs), hcur]

theorem mkGen_target_zero (len : Int) (l : Option Nat) (s0 : Option Int) :
    mkGen len l (some 0) s0 = ⟨.done, l, 0, 0, 1⟩ := by
  simp [mkGen]

theorem mkGen_agree (len : Int) (l : Option Nat) {t stp : Int} (ht : t ≠ 0)
    (hs : stp ≠ 0) (hsign : (0 < stp) ↔ (0 < t)) :
    mkGen len l (some t) (some stp) = ⟨.initial, l, 0, t, stp⟩ := by
  have hd : (decide (0 < stp)) = (decide (0 < t)) := by
    rw [decide_eq_decide]
    exact hsign
  simp [mkGen, ht, hs, hd]

theorem mkGen_mismatch (len : Int) (l : Option Nat) {t stp : Int} (ht : t ≠ 0)
    (hs : stp ≠ 0) (hsign : ¬((0 < stp) ↔ (0 < t))) :
    mkGen len l (some t) (some stp) = ⟨.done, l, 0, t, stp⟩ := by
  have hd : (decide (0 < stp)) ≠ (decide (0 < t)) := by
    intro he
    exact hsign (decide_eq_decide.mp he)
  simp [mkGen, ht, hs, hd]

/-- Characterisation of the ceiling division used by `refSliceLen`. -/
theorem ceil_char {t s : Nat} (ht : 0 < t) (hs : 0 < s) :
    0 < (t + s - 1) / s ∧ t ≤ ((t + s - 1) / s) * s ∧
      ((t + s - 1) / s - 1) * s < t := by
  have hdm := Nat.div_add_mod (t + s - 1) s
  have hml : (t + s - 1) % s < s := Nat.mod_lt _ hs
  have hqs : ((t + s - 1) / s) * s = s * ((t + s - 1) / s) := Nat.mul_comm _ _
  have hsub : ((t + s - 1) / s - 1) * s = ((t + s - 1) / s) * s - 1 * s :=
    Nat.sub_mul _ _ _
  have hq1 : 0 < (t + s - 1) / s := by
    rcases Nat.eq_zero_or_pos ((t + s - 1) / s) with h0 | h1
    · rw [h0] at hdm
      simp at hdm
      omega
    · exact h1
  refine ⟨hq1, ?_, ?_⟩
  · rw [hqs]
    generalize hX : s * ((t + s - 1) / s) = X at hdm ⊢
    omega
  · rw [hsub, hqs]
    generalize hX : s * ((t + s - 1) / s) = X at hdm ⊢
    omega

/-! ### The generator's yields over a chain region (positive step) -/

theorem genRun_pos {h : Heap α} {base : Nat} {p : Option Nat}
    {items : List (Option α)} (hc : chainAt h base p items) {stp : Int}
    (hstp : 0 < stp) {t : Int} :
    ∀ (K : Nat), ∀ (a : Nat) (cur : Int) (fuel : Nat),
      a < items.length →
      ((t ≤ cur ∧ K = 0) ∨
        (cur < t ∧ ((K : Int) - 1) * stp < t - cur ∧ t - cur ≤ (K : Int) * stp)) →
      a + K * stp.toNat < items.length →
      K < fuel →
      genYields h ⟨.running, some (base + a), cur, t, stp⟩ fuel =
        (List.range K).map (fun k => some (base + a + (k + 1) * stp.toNat)) := by
  intro K
  induction K with
  | zero =>
    intro a cur fuel ha hchar hrange hfuel
    have hstop : t ≤ cur := by
      rcases hchar with ⟨h1, _⟩ | ⟨h1, h2, h3⟩
      · exact h1
      · simp at h3
        omega
    cases fuel with
    | zero => omega
    | succ f =>
      show (match isliceNext h ⟨.running, some (base + a), cur, t, stp⟩ with
        | (none, _) => []
        | (some y, g1) => y :: genYields h g1 f) = _
      rw [isliceNext_pos_stop hstp hstop]
      rfl
  | succ K ih =>
    intro a cur fuel ha hchar hrange hfuel
    have hXnn : (0 : Int) ≤ (K : Int) * stp :=
      mul_nonneg (Int.natCast_nonneg K) (le_of_lt hstp)
    have hXge : K = 0 ∨ stp ≤ (K : Int) * stp := by
      rcases Nat.eq_zero_or_pos K with h0 | h1
      · exact Or.inl h0
      · exact Or.inr (le_mul_of_one_le_left (le_of_lt hstp) (by exact_mod_cast h1))
    obtain ⟨h1, h2, h3⟩ :
        cur < t ∧ ((K : Int)) * stp < t - cur ∧ t - cur ≤ (K : Int) * stp + stp := by
      rcases hchar with ⟨_, h2⟩ | ⟨h1, h2, h3⟩
      · omega
      · have e2 : ((↑(K + 1) : Int) - 1) * stp = (K : Int) * stp := by
          push_cast
          ring
        have e3 : ((↑(K + 1) : Int)) * stp = (K : Int) * stp + stp := by
          push_cast
          ring
        rw [e2] at h2
        rw [e3] at h3
        exact ⟨h1, h2, h3⟩
    have eN : stp.natAbs = stp.toNat := by omega
    have hmul : stp.toNat ≤ (K + 1) * stp.toNat :=
      Nat.le_mul_of_pos_left _ (Nat.succ_pos K)
    have hlt : a + stp.natAbs < items.length := by
      rw [eN]
      generalize hY : (K + 1) * stp.toNat = Y at hmul hrange
      omega
    cases fuel with
    | zero => omega
    | succ f =>
      show (match isliceNext h ⟨.running, some (base + a), cur, t, stp⟩ with
        | (none, _) => []
        | (some y, g1) => y :: genYields h g1 f) = _
      rw [isliceNext_pos_adv hstp h1, hopChain_chain_fwd hc stp.natAbs a ha,
        if_pos hlt]
      show some (base + a + stp.natAbs) ::
          genYields h ⟨.running, some (base + a + stp.natAbs), cur + stp, t, stp⟩ f = _
      rw [eN, show base + a + stp.toNat = base + (a + stp.toNat) from by omega]
      have hih := ih (a + stp.toNat) (cur + stp) f (by rw [eN] at hlt; omega)
        (by
          rcases Nat.eq_zero_or_pos K with h0 | hKpos
          · subst h0
            left
            simp at h3
            constructor
            · omega
            · rfl
          · right
            have hstpX : stp ≤ (K : Int) * stp := by
              rcases hXge with h0 | hX
              · omega
              · exact hX
            have e4 : ((K : Int) - 1) * stp = (K : Int) * stp - stp := by ring
            rw [e4]
            generalize hX : (K : Int) * stp = X at h2 h3 hstpX ⊢
            refine ⟨by omega, by omega, by omega⟩)
        (by
          have e5 : (K + 1) * stp.toNat = K * stp.toNat + stp.toNat := by
            rw [Nat.succ_mul]
          rw [e5] at hrange
          generalize hY : K * stp.toNat = Y at hrange ⊢
          omega)
        (by omega)
      rw [hih]
      rw [List.range_succ_eq_map, List.map_cons, List.map_map]
      have hhead : base + (a + stp.toNat) = base + a + (0 + 1) * stp.toNat := by
        omega
      rw [show (Nat.succ : Nat → Nat) = (fun k => k + 1) from rfl]
      refine congrArg₂ List.cons (by rw [hhead]) ?_
      apply List.map_congr_left
      intro k _
      show some (base + (a + stp.toNat) + (k + 1) * stp.toNat) = _
      have e6 : (k + 1 + 1) * stp.toNat = (k + 1) * stp.toNat + stp.toNat := by
        rw [Nat.succ_mul]
      show _ = some (base + a + (k + 1 + 1) * stp.toNat)
      rw [e6]
      generalize hZ : (k + 1) * stp.toNat = Z
      congr 1
      omega

theorem genYields_initial_pos {h : Heap α} {base : Nat} {p : Option Nat}
    {items : List (Option α)} (hc : chainAt h base p items) {stp : Int}
    (hstp : 0 < stp) {t : Int} {L : Nat} (hL : 0 < L)
    (hchar1 : ((L : Int) - 1) * stp < t) (hchar2 : t ≤ (L : Int) * stp)
    {a : Nat} (ha : a < items.length)
    (hrange : a + (L - 1) * stp.toNat < items.length)
    {fuel : Nat} (hfuel : L < fuel) :
    genYields h ⟨.initial, some (base + a), 0, t, stp⟩ fuel =
      (List.range L).map (fun k => some (base + a + k * stp.toNat)) := by
  cases fuel with
  | zero => omega
  | succ f =>
    show (match isliceNext h ⟨.initial, some (base + a), 0, t, stp⟩ with
      | (none, _) => []
      | (some y, g1) => y :: genYields h g1 f) = _
    rw [isliceNext_initial]
    show some (base + a) ::
        genYields h ⟨.running, some (base + a), stp, t, stp⟩ f = _
    have hrun := genRun_pos hc hstp (L - 1) a stp f ha
      (by
        rcases eq_or_lt_of_le hL with h1 | h1
        · left
          have hLI : (L : Int) = 1 := by exact_mod_cast h1.symm
          rw [hLI, one_mul] at hchar2
          exact ⟨hchar2, by omega⟩
        · right
          have e1 : ((L - 1 : Nat) : Int) = (L : Int) - 1 := by omega
          have e2 : ((L : Int) - 1) * stp = (L : Int) * stp - stp := by ring
          have e3 : ((L : Int) - 1 - 1) * stp = (L : Int) * stp - stp - stp := by ring
          have hstpX : stp + stp ≤ (L : Int) * stp := by
            have : (2 : Int) ≤ (L : Int) := by exact_mod_cast h1
            have h2 : (2 : Int) * stp ≤ (L : Int) * stp :=
              mul_le_mul_of_nonneg_right this (le_of_lt hstp)
            nlinarith
          rw [e1, e3]
          rw [e2] at hchar1
          generalize hX : (L : Int) * stp = X at hchar1 hchar2 hstpX ⊢
          refine ⟨by omega, by omega, by omega⟩)
      hrange (by omega)
    rw [hrun]
    have hL1 : L = (L - 1) + 1 := by omega
    rw [hL1, List.range_succ_eq_map, List.map_cons, List.map_map]
    rw [show (Nat.succ : Nat → Nat) = (fun k => k + 1) from rfl]
    refine congrArg₂ List.cons (by simp) ?_
    apply List.map_congr_left
    intro k _
    rfl

/-! ### The generator's yields over a chain region (negative step) -/

theorem genRun_neg {h : Heap α} {base : Nat} {items : List (Option α)}
    (hc : chainAt h base none items) {stp : Int} (hstp : stp < 0) {t : Int} :
    ∀ (K : Nat), ∀ (a : Nat) (cur : Int) (fuel : Nat),
      a < items.length →
      ((cur ≤ t ∧ K = 0) ∨
        (t < cur ∧ ((K : Int) - 1) * (-stp) < cur - t ∧
          cur - t ≤ (K : Int) * (-stp))) →
      K * stp.natAbs ≤ a →
      K < fuel →
      genYields h ⟨.running, some (base + a), cur, t, stp⟩ fuel =
        (List.range K).map (fun k => some (base + (a - (k + 1) * stp.natAbs))) := by
  intro K
  induction K with
  | zero =>
    intro a cur fuel ha hchar hrange hfuel
    have hstop : cur ≤ t := by
      rcases hchar with ⟨h1, _⟩ | ⟨h1, h2, h3⟩
      · exact h1
      · simp at h3
        omega
    cases fuel with
    | zero => omega
    | succ f =>
      show (match isliceNext h ⟨.running, some (base + a), cur, t, stp⟩ with
        | (none, _) => []
        | (some y, g1) => y :: genYields h g1 f) = _
      rw [isliceNext_neg_stop hstp hstop]
      rfl
  | succ K ih =>
    intro a cur fuel ha hchar hrange hfuel
    have hXnn : (0 : Int) ≤ (K : Int) * (-stp) :=
      mul_nonneg (Int.natCast_nonneg K) (by omega)
    have hXge : K = 0 ∨ (-stp) ≤ (K : Int) * (-stp) := by
      rcases Nat.eq_zero_or_pos K with h0 | h1
      · exact Or.inl h0
      · exact Or.inr (le_mul_of_one_le_left (by omega) (by exact_mod_cast h1))
    obtain ⟨h1, h2, h3⟩ :
        t < cur ∧ ((K : Int)) * (-stp) < cur - t ∧
          cur - t ≤ (K : Int) * (-stp) + (-stp) := by
      rcases hchar with ⟨_, h2⟩ | ⟨h1, h2, h3⟩
      · omega
      · have e2 : ((↑(K + 1) : Int) - 1) * (-stp) = (K : Int) * (-stp) := by
          push_cast
          ring
        have e3 : ((↑(K + 1) : Int)) * (-stp) = (K : Int) * (-stp) + (-stp) := by
          push_cast
          ring
        rw [e2] at h2
        rw [e3] at h3
        exact ⟨h1, h2, h3⟩
    have hmul : stp.natAbs ≤ (K + 1) * stp.natAbs :=
      Nat.le_mul_of_pos_left _ (Nat.succ_pos K)
    have hle : stp.natAbs ≤ a := by
      generalize hY : (K + 1) * stp.natAbs = Y at hmul hrange
      omega
    cases fuel with
    | zero => omega
    | succ f =>
      show (match isliceNext h ⟨.running, some (base + a), cur, t, stp⟩ with
        | (none, _) => []
        | (some y, g1) => y :: genYields h g1 f) = _
      rw [isliceNext_neg_adv hstp h1, hopChain_chain_bwd hc stp.natAbs a ha,
        if_pos hle]
      show some (base + (a - stp.natAbs)) ::
          genYields h ⟨.running, some (base + (a - stp.natAbs)), cur + stp, t, stp⟩ f
        = _
      have hih := ih (a - stp.natAbs) (cur + stp) f (by omega)
        (by
          rcases Nat.eq_zero_or_pos K with h0 | hKpos
          · subst h0
            left
            simp at h3
            constructor
            · omega
            · rfl
          · right
            have hstpX : (-stp) ≤ (K : Int) * (-stp) := by
              rcases hXge with h0 | hX
              · omega
              · exact hX
            have e4 : ((K : Int) - 1) * (-stp) = (K : Int) * (-stp) - (-stp) := by
              ring
            rw [e4]
            generalize hX : (K : Int) * (-stp) = X at h2 h3 hstpX ⊢
            refine ⟨by omega, by omega, by omega⟩)
        (by
          have e5 : (K + 1) * stp.natAbs = K * stp.natAbs + stp.natAbs := by
            rw [Nat.succ_mul]
          rw [e5] at hrange
          generalize hY : K * stp.natAbs = Y at hrange ⊢
          omega)
        (by omega)
      rw [hih]
      rw [List.range_succ_eq_map, List.map_cons, List.map_map]
      rw [show (Nat.succ : Nat → Nat) = (fun k => k + 1) from rfl]
      refine congrArg₂ List.cons (by norm_num) ?_
      apply List.map_congr_left
      intro k _
      show some (base + (a - stp.natAbs - (k + 1) * stp.natAbs)) = _
      show _ = some (base + (a - (k + 1 + 1) * stp.natAbs))
      have e6 : (k + 1 + 1) * stp.natAbs = stp.natAbs + (k + 1) * stp.natAbs := by
        rw [Nat.succ_mul]
        omega
      rw [e6, Nat.sub_sub]

theorem genYields_initial_neg {h : Heap α} {base : Nat}
    {items : List (Option α)} (hc : chainAt h base none items) {stp : Int}
    (hstp : stp < 0) {t : Int} {L : Nat} (hL : 0 < L)
    (hchar1 : ((L : Int) - 1) * (-stp) < -t) (hchar2 : -t ≤ (L : Int) * (-stp))
    {a : Nat} (ha : a < items.length)
    (hrange : (L - 1) * stp.natAbs ≤ a)
    {fuel : Nat} (hfuel : L < fuel) :
    genYields h ⟨.initial, some (base + a), 0, t, stp⟩ fuel =
      (List.range L).map (fun k => some (base + (a - k * stp.natAbs))) := by
  cases fuel with
  | zero => omega
  | succ f =>
    show (match isliceNext h ⟨.initial, some (base + a), 0, t, stp⟩ with
      | (none, _) => []
      | (some y, g1) => y :: genYields h g1 f) = _
    rw [isliceNext_initial]
    show some (base + a) ::
        genYields h ⟨.running, some (base + a), stp, t, stp⟩ f = _
    have hrun := genRun_neg hc hstp (L - 1) a stp f ha
      (by
        rcases eq_or_lt_of_le hL with h1 | h1
        · have hLI : (L : Int) = 1 := by exact_mod_cast h1.symm
          rw [hLI, one_mul] at hchar2
          have hc1 : stp ≤ t := by omega
          have hc2 : L - 1 = 0 := by omega
          exact Or.inl ⟨hc1, hc2⟩
        · right
          have e1 : ((L - 1 : Nat) : Int) = (L : Int) - 1 := by omega
          have e2 : ((L : Int) - 1) * (-stp) = (L : Int) * (-stp) - (-stp) := by
            ring
          have e3 : ((L : Int) - 1 - 1) * (-stp) =
              (L : Int) * (-stp) - (-stp) - (-stp) := by
            ring
          have hstpX : (-stp) + (-stp) ≤ (L : Int) * (-stp) := by
            have hc2 : (2 : Int) ≤ (L : Int) := by exact_mod_cast h1
            have h2 : (2 : Int) * (-stp) ≤ (L : Int) * (-stp) :=
              mul_le_mul_of_nonneg_right hc2 (by omega)
            nlinarith
          rw [e1, e3]
          rw [e2] at hchar1
          generalize hX : (L : Int) * (-stp) = X at hchar1 hchar2 hstpX ⊢
          refine ⟨by omega, by omega, by omega⟩)
      hrange (by omega)
    rw [hrun]
    have hL1 : L = (L - 1) + 1 := by omega
    rw [hL1, List.range_succ_eq_map, List.map_cons, List.map_map]
    rw [show (Nat.succ : Nat → Nat) = (fun k => k + 1) from rfl]
    refine congrArg₂ List.cons (by simp) ?_
    apply List.map_congr_left
    intro k _
    rfl

/-! ### Slice normalisation and anchoring on a canonical container -/

theorem sliceIndices_bounds {start stop step : Option Int} {len st sp stp : Int}
    (hlen : 0 ≤ len) (h : sliceIndices start stop step len = .ok (st, sp, stp)) :
    stp ≠ 0 ∧
      ((0 < stp ∧ 0 ≤ st ∧ st ≤ len ∧ 0 ≤ sp ∧ sp ≤ len) ∨
       (stp < 0 ∧ -1 ≤ st ∧ st ≤ len - 1 ∧ -1 ≤ sp ∧ sp ≤ len - 1)) := by
  rcases step with _ | sv <;> rcases start with _ | av <;> rcases stop with _ | bv <;>
    simp only [sliceIndices, Option.getD] at h <;> split_ifs at h
  all_goals try (obtain ⟨rfl, rfl, rfl⟩ := h)
  all_goals refine ⟨by omega, ?_⟩
  all_goals try simp only [Int.max_def, Int.min_def]
  all_goals try split_ifs
  all_goals omega

theorem canonLinks_first {xs : List α} (h : 0 < xs.length) :
    (canonLinks xs).first = some 0 := by
  unfold canonLinks
  rw [if_neg (by simp [List.isEmpty_iff]; intro he; rw [he] at h; simp at h)]

theorem canonLinks_last {xs : List α} (h : 0 < xs.length) :
    (canonLinks xs).last = some (xs.length - 1) := by
  unfold canonLinks
  rw [if_neg (by simp [List.isEmpty_iff]; intro he; rw [he] at h; simp at h)]

theorem canonLinks_length (xs : List α) :
    (canonLinks xs).length = (xs.length : Int) := by
  unfold canonLinks
  rcases eq_or_ne xs [] with rfl | hne
  · rfl
  · rw [if_neg (by simp [List.isEmpty_iff, hne])]

theorem map_some_length (xs : List α) : (xs.map some).length = xs.length := by
  simp

theorem sliceAnchor_canon {xs : List α} (hlen : 0 < xs.length) {st : Int}
    (hlo : -1 ≤ st) (hhi : st ≤ (xs.length : Int)) :
    sliceAnchor (canonHeap xs) (canonLinks xs) st =
      .ok (if 0 ≤ st ∧ st < (xs.length : Int) then some st.toNat else none) := by
  have hc := chainAt_canon xs
  have hm := map_some_length xs
  unfold sliceAnchor
  rw [canonLinks_length]
  by_cases hcase : st < ((xs.length : Int) - 1) - st
  · rw [if_pos hcase, canonLinks_first hlen]
    show Except.ok (rshift (canonHeap xs) 0 st) = _
    congr 1
    rcases lt_trichotomy st 0 with hneg | hz | hpos
    · have hst : st = -1 := by omega
      subst hst
      have hr := rshift_chain_bwd (a := 0) hc (by omega) (by omega : (-1 : Int) < 0)
      rw [show (0 + 0 : Nat) = 0 from rfl] at hr
      rw [hr, if_neg (by simp), if_neg (by omega)]
    · subst hz
      rw [rshift_zero, if_pos (by constructor <;> omega)]
      rfl
    · have hr := rshift_chain_fwd (a := 0) hc (by omega) hpos
      rw [show (0 + 0 : Nat) = 0 from rfl] at hr
      rw [hr]
      rcases Nat.lt_or_ge (0 + st.toNat) (xs.map some).length with hlt | hge
      · rw [if_pos hlt, if_pos (by omega)]
        congr 1
        omega
      · rw [if_neg (by omega), if_neg (by omega)]
  · rw [if_neg hcase, canonLinks_last hlen]
    show Except.ok (rshift (canonHeap xs) (xs.length - 1)
      (-(((xs.length : Int) - 1) - st))) = _
    congr 1
    rcases lt_trichotomy (-(((xs.length : Int) - 1) - st)) 0 with hneg | hz | hpos
    · have hr := rshift_chain_bwd (a := xs.length - 1) hc (by omega) hneg
      rw [show (0 + (xs.length - 1) : Nat) = xs.length - 1 from by omega] at hr
      rw [hr]
      rcases Nat.lt_or_ge (xs.length - 1) ((-(((xs.length : Int) - 1) - st)).natAbs) with hgt | hle
      · rw [if_neg (by omega), if_neg (by omega)]
      · rw [if_pos (by omega), if_pos (by omega)]
        congr 1
        omega
    · rw [hz, rshift_zero, if_pos (by omega)]
      congr 1
      omega
    · have hr := rshift_chain_fwd (a := xs.length - 1) hc (by omega) hpos
      rw [show (0 + (xs.length - 1) : Nat) = xs.length - 1 from by omega] at hr
      rw [hr, if_neg (by omega), if_neg (by omega)]

theorem pyList_empty (h : Heap α) : pyList h emptyLinks = [] := rfl

theorem refSliceItems_zero (xs : List α) (st stp : Int) :
    refSliceItems xs st stp 0 = [] := rfl

theorem refSliceLen_zero_pos {st sp stp : Int} (h : sp ≤ st) (hstp : 0 < stp) :
    refSliceLen st sp stp = 0 := by
  unfold refSliceLen
  rw [if_pos hstp]
  have h1 : (sp - st).toNat = 0 := by omega
  rw [h1, Nat.zero_add]
  exact Nat.div_eq_of_lt (by omega)

theorem refSliceLen_zero_neg {st sp stp : Int} (h : st ≤ sp) (hstp : stp < 0) :
    refSliceLen st sp stp = 0 := by
  unfold refSliceLen
  rw [if_neg (by omega)]
  have h1 : (st - sp).toNat = 0 := by omega
  rw [h1, Nat.zero_add]
  exact Nat.div_eq_of_lt (by omega)

theorem extracted_eq_ref_pos {xs : List α} {st stp : Int} (h0 : 0 ≤ st)
    (hstp : 0 < stp) {L : Nat}
    (hin : ∀ k, k < L → st.toNat + k * stp.toNat < xs.length) :
    (List.range L).map
        (fun k => (nodeAt (canonHeap xs) (st.toNat + k * stp.toNat)).item) =
      refSliceItems xs st stp L := by
  unfold refSliceItems
  apply List.map_congr_left
  intro k hk
  rw [List.mem_range] at hk
  have hklt := hin k hk
  have hb : ((k * stp.toNat : Nat) : Int) = (k : Int) * stp := by
    rw [Nat.cast_mul]
    have habs : ((stp.toNat : Nat) : Int) = stp := by omega
    rw [habs]
  have hcast : (st + (k : Int) * stp).toNat = st.toNat + k * stp.toNat := by
    omega
  have hv := List.get?_eq_get (l := xs) hklt
  rw [canon_item hv]
  unfold refGet
  rw [if_pos (by omega), hcast, hv]

theorem extracted_eq_ref_neg {xs : List α} {st stp : Int} (h0 : 0 ≤ st)
    (hstp : stp < 0) (hst : st < xs.length) {L : Nat}
    (hin : ∀ k, k < L → k * stp.natAbs ≤ st.toNat) :
    (List.range L).map
        (fun k => (nodeAt (canonHeap xs) (st.toNat - k * stp.natAbs)).item) =
      refSliceItems xs st stp L := by
  unfold refSliceItems
  apply List.map_congr_left
  intro k hk
  rw [List.mem_range] at hk
  have hkle := hin k hk
  have hb : ((k * stp.natAbs : Nat) : Int) = -((k : Int) * stp) := by
    rw [Nat.cast_mul]
    have habs : ((stp.natAbs : Nat) : Int) = -stp := by omega
    rw [habs]
    ring
  have hcast : (st + (k : Int) * stp).toNat = st.toNat - k * stp.natAbs := by
    omega
  have hpos : 0 ≤ st + (k : Int) * stp := by omega
  have hklt : st.toNat - k * stp.natAbs < xs.length := by omega
  have hv := List.get?_eq_get (l := xs) hklt
  rw [canon_item hv]
  unfold refGet
  rw [if_pos hpos, hcast, hv]

theorem getSliceCore_canon_pos {xs : List α} {st sp stp : Int}
    (h0 : 0 ≤ st) (hstn : st < (xs.length : Int)) (hsp : sp ≤ (xs.length : Int))
    (ht : st < sp) (hstp : 0 < stp) :
    getSliceCore (canonHeap xs) (xs.length : Int) (some st.toNat)
        (some (sp - st)) (some stp) =
      .ok (canonHeap xs ++
            seg xs.length none (refSliceItems xs st stp (refSliceLen st sp stp)),
           ⟨some xs.length, some (xs.length + (refSliceLen st sp stp - 1)),
            ((refSliceLen st sp stp : Nat) : Int)⟩) := by
  have hm := map_some_length xs
  have hc := chainAt_canon xs
  have hLchar : 0 < refSliceLen st sp stp ∧
      (sp - st).toNat ≤ (refSliceLen st sp stp) * stp.toNat ∧
      (refSliceLen st sp stp - 1) * stp.toNat < (sp - st).toNat := by
    have h1 : 0 < (sp - st).toNat := by omega
    have h2 : 0 < stp.toNat := by omega
    have h3 := ceil_char h1 h2
    unfold refSliceLen
    rw [if_pos hstp,
      show (sp - st).toNat + (stp.toNat - 1) = (sp - st).toNat + stp.toNat - 1 from
        by omega]
    exact ⟨h3.1, h3.2.1, h3.2.2⟩
  obtain ⟨hL1, hLu, hLl⟩ := hLchar
  have hstpN : ((stp.toNat : Nat) : Int) = stp := by omega
  have hchar1 : ((refSliceLen st sp stp : Int) - 1) * stp < sp - st := by
    have hb : (((refSliceLen st sp stp - 1) * stp.toNat : Nat) : Int) =
        ((refSliceLen st sp stp : Int) - 1) * stp := by
      rw [Nat.cast_mul, hstpN]
      congr 1
      omega
    omega
  have hchar2 : sp - st ≤ (refSliceLen st sp stp : Int) * stp := by
    have hb : ((refSliceLen st sp stp * stp.toNat : Nat) : Int) =
        (refSliceLen st sp stp : Int) * stp := by
      rw [Nat.cast_mul, hstpN]
    omega
  have hrange : st.toNat + (refSliceLen st sp stp - 1) * stp.toNat <
      (xs.map some).length := by
    rw [hm]
    omega
  have hLle : refSliceLen st sp stp ≤ (sp - st).toNat := by
    have h3 := Nat.le_mul_of_pos_right (refSliceLen st sp stp - 1)
      (show 0 < stp.toNat from by omega)
    omega
  have hgen : mkGen (xs.length : Int) (some st.toNat) (some (sp - st)) (some stp)
      = ⟨.initial, some st.toNat, 0, sp - st, stp⟩ :=
    mkGen_agree _ _ (by omega) (by omega) (by constructor <;> (intro _; omega))
  have hyields := genYields_initial_pos (a := st.toNat) hc hstp hL1
    hchar1 hchar2 (by rw [hm]; omega) hrange
    (show refSliceLen st sp stp <
        genFuel ⟨.initial, some st.toNat, 0, sp - st, stp⟩ from
      by unfold genFuel; simp only; omega)
  simp only [Nat.zero_add] at hyields
  have hys : (List.range (refSliceLen st sp stp)).map
        (fun k => some (st.toNat + k * stp.toNat)) =
      some st.toNat :: (List.range (refSliceLen st sp stp - 1)).map
        (fun k => some (st.toNat + (k + 1) * stp.toNat)) := by
    conv_lhs => rw [show refSliceLen st sp stp = (refSliceLen st sp stp - 1) + 1 from
      by omega, List.range_succ_eq_map]
    rw [List.map_cons, List.map_map]
    refine congrArg₂ List.cons (by norm_num) ?_
    apply List.map_congr_left
    intro k _
    rfl
  rw [hys] at hyields
  have hnone : ((List.range (refSliceLen st sp stp - 1)).map
      (fun k => some (st.toNat + (k + 1) * stp.toNat))).any Option.isNone = false := by
    simp
  simp only [getSliceCore]
  rw [hgen, hyields]
  show getBuild (canonHeap xs) st.toNat
    ((List.range (refSliceLen st sp stp - 1)).map
      (fun k => some (st.toNat + (k + 1) * stp.toNat))) = _
  simp only [getBuild, hnone, Bool.false_eq_true, if_false, List.map_map]
  have hext : ((List.range (refSliceLen st sp stp - 1)).map
      ((fun y => match y with
        | some b => (nodeAt (canonHeap xs) b).item
        | none => none) ∘ (fun k => some (st.toNat + (k + 1) * stp.toNat)))) =
      (List.range (refSliceLen st sp stp - 1)).map
        (fun k => (nodeAt (canonHeap xs) (st.toNat + (k + 1) * stp.toNat)).item) := by
    apply List.map_congr_left
    intro k _
    rfl
  rw [hext, buildLoop_spec]
  have hin : ∀ k, k < refSliceLen st sp stp →
      st.toNat + k * stp.toNat < xs.length := by
    intro k hk
    have hmono : k * stp.toNat ≤ (refSliceLen st sp stp - 1) * stp.toNat :=
      Nat.mul_le_mul_right _ (by omega)
    generalize hA : k * stp.toNat = A at hmono ⊢
    generalize hB : (refSliceLen st sp stp - 1) * stp.toNat = B at hmono hrange
    omega
  have hitems : (nodeAt (canonHeap xs) st.toNat).item ::
      (List.range (refSliceLen st sp stp - 1)).map
        (fun k => (nodeAt (canonHeap xs) (st.toNat + (k + 1) * stp.toNat)).item) =
      refSliceItems xs st stp (refSliceLen st sp stp) := by
    rw [← extracted_eq_ref_pos h0 hstp hin]
    conv_rhs => rw [show refSliceLen st sp stp = (refSliceLen st sp stp - 1) + 1 from
      by omega, List.range_succ_eq_map]
    rw [List.map_cons, List.map_map]
    refine congrArg₂ List.cons (by norm_num) ?_
    apply List.map_congr_left
    intro k _
    rfl
  have hlenmap : ((List.range (refSliceLen st sp stp - 1)).map
      (fun k => (nodeAt (canonHeap xs) (st.toNat + (k + 1) * stp.toNat)).item)).length
      = refSliceLen st sp stp - 1 := by
    rw [List.length_map, List.length_range]
  rw [Except.ok.injEq, Prod.mk.injEq]
  constructor
  · rw [canonHeap_length, ← hitems]
  · rw [PyLinks.mk.injEq]
    refine ⟨by rw [canonHeap_length], ?_, ?_⟩
    · rw [canonHeap_length, hlenmap]
    · show ((1 + ((List.range (refSliceLen st sp stp - 1)).map
          (fun k => (nodeAt (canonHeap xs)
            (st.toNat + (k + 1) * stp.toNat)).item)).length : Nat) : Int) = _
      rw [hlenmap]
      congr 1
      omega

theorem getSliceCore_canon_neg {xs : List α} {st sp stp : Int}
    (h0 : 0 ≤ st) (hstn : st < (xs.length : Int)) (hsp : -1 ≤ sp)
    (ht : sp < st) (hstp : stp < 0) :
    getSliceCore (canonHeap xs) (xs.length : Int) (some st.toNat)
        (some (sp - st)) (some stp) =
      .ok (canonHeap xs ++
            seg xs.length none (refSliceItems xs st stp (refSliceLen st sp stp)),
           ⟨some xs.length, some (xs.length + (refSliceLen st sp stp - 1)),
            ((refSliceLen st sp stp : Nat) : Int)⟩) := by
  have hm := map_some_length xs
  have hc := chainAt_canon xs
  have habsN : (-stp).toNat = stp.natAbs := by omega
  have hLchar : 0 < refSliceLen st sp stp ∧
      (st - sp).toNat ≤ (refSliceLen st sp stp) * stp.natAbs ∧
      (refSliceLen st sp stp - 1) * stp.natAbs < (st - sp).toNat := by
    have h1 : 0 < (st - sp).toNat := by omega
    have h2 : 0 < stp.natAbs := by omega
    have h3 := ceil_char h1 h2
    unfold refSliceLen
    rw [if_neg (by omega), habsN,
      show (st - sp).toNat + (stp.natAbs - 1) = (st - sp).toNat + stp.natAbs - 1 from
        by omega]
    exact ⟨h3.1, h3.2.1, h3.2.2⟩
  obtain ⟨hL1, hLu, hLl⟩ := hLchar
  have hstpN : ((stp.natAbs : Nat) : Int) = -stp := by omega
  have hchar1 : ((refSliceLen st sp stp : Int) - 1) * (-stp) < -(sp - st) := by
    have hb : (((refSliceLen st sp stp - 1) * stp.natAbs : Nat) : Int) =
        ((refSliceLen st sp stp : Int) - 1) * (-stp) := by
      rw [Nat.cast_mul, hstpN]
      congr 1
      omega
    omega
  have hchar2 : -(sp - st) ≤ (refSliceLen st sp stp : Int) * (-stp) := by
    have hb : ((refSliceLen st sp stp * stp.natAbs : Nat) : Int) =
        (refSliceLen st sp stp : Int) * (-stp) := by
      rw [Nat.cast_mul, hstpN]
    omega
  have hrange : (refSliceLen st sp stp - 1) * stp.natAbs ≤ st.toNat := by
    omega
  have hLle : refSliceLen st sp stp ≤ (st - sp).toNat := by
    have h3 := Nat.le_mul_of_pos_right (refSliceLen st sp stp - 1)
      (show 0 < stp.natAbs from by omega)
    omega
  have hgen : mkGen (xs.length : Int) (some st.toNat) (some (sp - st)) (some stp)
      = ⟨.initial, some st.toNat, 0, sp - st, stp⟩ :=
    mkGen_agree _ _ (by omega) (by omega) (by constructor <;> (intro _; omega))
  have hyields := genYields_initial_neg (a := st.toNat) hc hstp hL1
    hchar1 hchar2 (by rw [hm]; omega) hrange
    (show refSliceLen st sp stp <
        genFuel ⟨.initial, some st.toNat, 0, sp - st, stp⟩ from
      by unfold genFuel; simp only; omega)
  simp only [Nat.zero_add] at hyields
  have hys : (List.range (refSliceLen st sp stp)).map
        (fun k => some (st.toNat - k * stp.natAbs)) =
      some st.toNat :: (List.range (refSliceLen st sp stp - 1)).map
        (fun k => some (st.toNat - (k + 1) * stp.natAbs)) := by
    conv_lhs => rw [show refSliceLen st sp stp = (refSliceLen st sp stp - 1) + 1 from
      by omega, List.range_succ_eq_map]
    rw [List.map_cons, List.map_map]
    refine congrArg₂ List.cons (by norm_num) ?_
    apply List.map_congr_left
    intro k _
    rfl
  rw [hys] at hyields
  have hnone : ((List.range (refSliceLen st sp stp - 1)).map
      (fun k => some (st.toNat - (k + 1) * stp.natAbs))).any Option.isNone = false := by
    simp
  simp only [getSliceCore]
  rw [hgen, hyields]
  show getBuild (canonHeap xs) st.toNat
    ((List.range (refSliceLen st sp stp - 1)).map
      (fun k => some (st.toNat - (k + 1) * stp.natAbs))) = _
  simp only [getBuild, hnone, Bool.false_eq_true, if_false, List.map_map]
  have hext : ((List.range (refSliceLen st sp stp - 1)).map
      ((fun y => match y with
        | some b => (nodeAt (canonHeap xs) b).item
        | none => none) ∘ (fun k => some (st.toNat - (k + 1) * stp.natAbs)))) =
      (List.range (refSliceLen st sp stp - 1)).map
        (fun k => (nodeAt (canonHeap xs) (st.toNat - (k + 1) * stp.natAbs)).item) := by
    apply List.map_congr_left
    intro k _
    rfl
  rw [hext, buildLoop_spec]
  have hin : ∀ k, k < refSliceLen st sp stp →
      k * stp.natAbs ≤ st.toNat := by
    intro k hk
    have hmono : k * stp.natAbs ≤ (refSliceLen st sp stp - 1) * stp.natAbs :=
      Nat.mul_le_mul_right _ (by omega)
    generalize hA : k * stp.natAbs = A at hmono ⊢
    generalize hB : (refSliceLen st sp stp - 1) * stp.natAbs = B at hmono hrange
    omega
  have hitems : (nodeAt (canonHeap xs) st.toNat).item ::
      (List.range (refSliceLen st sp stp - 1)).map
        (fun k => (nodeAt (canonHeap xs) (st.toNat - (k + 1) * stp.natAbs)).item) =
      refSliceItems xs st stp (refSliceLen st sp stp) := by
    rw [← extracted_eq_ref_neg h0 hstp (by omega) hin]
    conv_rhs => rw [show refSliceLen st sp stp = (refSliceLen st sp stp - 1) + 1 from
      by omega, List.range_succ_eq_map]
    rw [List.map_cons, List.map_map]
    refine congrArg₂ List.cons (by norm_num) ?_
    apply List.map_congr_left
    intro k _
    rfl
  have hlenmap : ((List.range (refSliceLen st sp stp - 1)).map
      (fun k => (nodeAt (canonHeap xs) (st.toNat - (k + 1) * stp.natAbs)).item)).length
      = refSliceLen st sp stp - 1 := by
    rw [List.length_map, List.length_range]
  rw [Except.ok.injEq, Prod.mk.injEq]
  constructor
  · rw [canonHeap_length, ← hitems]
  · rw [PyLinks.mk.injEq]
    refine ⟨by rw [canonHeap_length], ?_, ?_⟩
    · rw [canonHeap_length, hlenmap]
    · show ((1 + ((List.range (refSliceLen st sp stp - 1)).map
          (fun k => (nodeAt (canonHeap xs)
            (st.toNat - (k + 1) * stp.natAbs)).item)).length : Nat) : Int) = _
      rw [hlenmap]
      congr 1
      omega

theorem refSliceItems_length (xs : List α) (st stp : Int) (L : Nat) :
    (refSliceItems xs st stp L).length = L := by
  unfold refSliceItems
  rw [List.length_map, List.length_range]

theorem refSliceLen_pos_pos {st sp stp : Int} (ht : st < sp) (hstp : 0 < stp) :
    0 < refSliceLen st sp stp := by
  unfold refSliceLen
  rw [if_pos hstp]
  have h3 := ceil_char (t := (sp - st).toNat) (s := stp.toNat) (by omega) (by omega)
  rw [show (sp - st).toNat + (stp.toNat - 1) = (sp - st).toNat + stp.toNat - 1 from
    by omega]
  exact h3.1

theorem refSliceLen_pos_neg {st sp stp : Int} (ht : sp < st) (hstp : stp < 0) :
    0 < refSliceLen st sp stp := by
  unfold refSliceLen
  rw [if_neg (by omega)]
  have h3 := ceil_char (t := (st - sp).toNat) (s := (-stp).toNat) (by omega) (by omega)
  rw [show (st - sp).toNat + ((-stp).toNat - 1) = (st - sp).toNat + (-stp).toNat - 1
    from by omega]
  exact h3.1

theorem getSliceIdx_unfold (h : Heap α) (s : PyLinks) (start stop step : Option Int) :
    getSliceIdx h s start stop step =
      match sliceIndices start stop step s.length with
      | .error e => .error e
      | .ok r =>
        match sliceAnchor h s r.1 with
        | .error e => .error e
        | .ok anchor => getSliceCore h s.length anchor (some (r.2.1 - r.1))
            (some r.2.2) := by
  unfold getSliceIdx
  cases hE : sliceIndices start stop step s.length with
  | error e => rfl
  | ok r =>
    show Except.bind (sliceAnchor h s r.1) _ =
      match sliceAnchor h s r.1 with
      | .error e => .error e
      | .ok anchor => getSliceCore h s.length anchor (some (r.2.1 - r.1))
          (some r.2.2)
    cases hA : sliceAnchor h s r.1 with
    | error e => rfl
    | ok anchor => rfl

theorem pyList_seg_result {xs : List α} (items : List (Option α))
    (hne : items ≠ []) :
    pyList (canonHeap xs ++ seg xs.length none items)
      ⟨some xs.length, some (xs.length + (items.length - 1)),
        ((items.length : Nat) : Int)⟩ = items := by
  have hcl := canonHeap_length xs
  have hchain := chainAt_append_seg (canonHeap xs) items none
  rw [hcl] at hchain
  have hlen2 : (canonHeap xs ++ seg xs.length none items).length =
      xs.length + items.length := by
    rw [List.length_append, hcl, seg_length]
  have hil : 0 < items.length := by
    cases items with
    | nil => exact absurd rfl hne
    | cons a b => simp
  have hw := walkItems_chain hchain ((canonHeap xs ++ seg xs.length none items).length + 1)
    0 (by omega) (by omega)
  simp only [Nat.add_zero, List.drop_zero] at hw
  exact hw

theorem c5_slice_read (xs : List α) (hne : xs ≠ []) (start stop step : Option Int) :
    resultItems (getSliceIdx (mkLinks xs).1 (mkLinks xs).2 start stop step) =
      refSliceFull xs start stop step := by
  have hlen : 0 < xs.length := List.length_pos.mpr hne
  rw [mkLinks_eq]
  show resultItems (getSliceIdx (canonHeap xs) (canonLinks xs) start stop step) = _
  rw [getSliceIdx_unfold, canonLinks_length]
  unfold refSliceFull
  cases hI : sliceIndices start stop step (xs.length : Int) with
  | error e => rfl
  | ok r =>
    obtain ⟨st, sp, stp⟩ := r
    obtain ⟨hstp0, hbounds⟩ := sliceIndices_bounds (by omega) hI
    have hstlo : -1 ≤ st := by rcases hbounds with ⟨_, h⟩ | ⟨_, h⟩ <;> omega
    have hsthi : st ≤ (xs.length : Int) := by
      rcases hbounds with ⟨_, _, h, _⟩ | ⟨_, _, h, _⟩ <;> omega
    show resultItems (match sliceAnchor (canonHeap xs) (canonLinks xs) st with
      | .error e => .error e
      | .ok anchor => getSliceCore (canonHeap xs) (xs.length : Int) anchor
          (some (sp - st)) (some stp)) = _
    rw [sliceAnchor_canon hlen hstlo hsthi]
    show resultItems (getSliceCore (canonHeap xs) (xs.length : Int)
      (if 0 ≤ st ∧ st < (xs.length : Int) then some st.toNat else none)
      (some (sp - st)) (some stp)) = _
    by_cases hanchor : 0 ≤ st ∧ st < (xs.length : Int)
    · rw [if_pos hanchor]
      rcases lt_trichotomy st sp with hts | hts | hts
      · rcases lt_or_le 0 stp with hsign | hsign
        · -- forward run
          have hsp : sp ≤ (xs.length : Int) := by
            rcases hbounds with ⟨_, _, _, _, h⟩ | ⟨hn, _, _, _, h⟩
            · omega
            · omega
          rw [getSliceCore_canon_pos hanchor.1 hanchor.2 hsp hts hsign]
          have hLpos := refSliceLen_pos_pos hts hsign
          show Except.ok (pyList
              (canonHeap xs ++ seg xs.length none
                (refSliceItems xs st stp (refSliceLen st sp stp)))
              ⟨some xs.length, some (xs.length + (refSliceLen st sp stp - 1)),
                ((refSliceLen st sp stp : Nat) : Int)⟩) =
            Except.ok (refSliceItems xs st stp (refSliceLen st sp stp))
          generalize hGI : refSliceItems xs st stp (refSliceLen st sp stp) = I
          have hIl : I.length = refSliceLen st sp stp := by
            rw [← hGI]
            exact refSliceItems_length xs st stp _
          have hIne : I ≠ [] := by
            intro hcon
            rw [hcon] at hIl
            simp at hIl
            omega
          rw [← hIl]
          exact congrArg Except.ok (pyList_seg_result I hIne)
        · -- sign mismatch: empty
          have hzero : refSliceLen st sp stp = 0 :=
            refSliceLen_zero_neg (by omega) (by omega)
          simp only [getSliceCore]
          rw [mkGen_mismatch _ _ (by omega) hstp0 (by
            intro hiff
            rcases hiff with ⟨h1, h2⟩
            omega)]
          rw [genYields_done]
          show _ = Except.ok (refSliceItems xs st stp (refSliceLen st sp stp))
          rw [hzero, refSliceItems_zero]
          rfl
      · -- empty target
        have hzero : refSliceLen st sp stp = 0 := by
          rcases lt_or_le 0 stp with hsign | hsign
          · exact refSliceLen_zero_pos (by omega) hsign
          · exact refSliceLen_zero_neg (by omega) (by omega)
        simp only [getSliceCore]
        rw [show sp - st = 0 from by omega, mkGen_target_zero, genYields_done]
        show _ = Except.ok (refSliceItems xs st stp (refSliceLen st sp stp))
        rw [hzero, refSliceItems_zero]
        rfl
      · rcases lt_or_le 0 stp with hsign | hsign
        · -- sign mismatch: empty
          have hzero : refSliceLen st sp stp = 0 :=
            refSliceLen_zero_pos (by omega) hsign
          simp only [getSliceCore]
          rw [mkGen_mismatch _ _ (by omega) hstp0 (by
            intro hiff
            rcases hiff with ⟨h1, h2⟩
            omega)]
          rw [genYields_done]
          show _ = Except.ok (refSliceItems xs st stp (refSliceLen st sp stp))
          rw [hzero, refSliceItems_zero]
          rfl
        · -- backward run
          have hsplo : -1 ≤ sp := by
            rcases hbounds with ⟨h1, _⟩ | ⟨_, _, _, h, _⟩
            · omega
            · omega
          rw [getSliceCore_canon_neg hanchor.1 hanchor.2 hsplo hts (by omega)]
          have hLpos := @refSliceLen_pos_neg st sp stp hts (by omega)
          show Except.ok (pyList
              (canonHeap xs ++ seg xs.length none
                (refSliceItems xs st stp (refSliceLen st sp stp)))
              ⟨some xs.length, some (xs.length + (refSliceLen st sp stp - 1)),
                ((refSliceLen st sp stp : Nat) : Int)⟩) =
            Except.ok (refSliceItems xs st stp (refSliceLen st sp stp))
          generalize hGI : refSliceItems xs st stp (refSliceLen st sp stp) = I
          have hIl : I.length = refSliceLen st sp stp := by
            rw [← hGI]
            exact refSliceItems_length xs st stp _
          have hIne : I ≠ [] := by
            intro hcon
            rw [hcon] at hIl
            simp at hIl
            omega
          rw [← hIl]
          exact congrArg Except.ok (pyList_seg_result I hIne)
    · rw [if_neg hanchor]
      have hzero : refSliceLen st sp stp = 0 := by
        rcases hbounds with ⟨h1, h2, h3, h4, h5⟩ | ⟨h1, h2, h3, h4, h5⟩
        · exact refSliceLen_zero_pos (by omega) h1
        · exact refSliceLen_zero_neg (by omega) h1
      show _ = Except.ok (refSliceItems xs st stp (refSliceLen st sp stp))
      rw [hzero, refSliceItems_zero]
      rfl

/-! ### Full-slice copy (claim C9) and empty-container slicing -/

theorem sliceIndices_full (L : Int) :
    sliceIndices none none none L = .ok (0, L, 1) := rfl

theorem refSliceLen_full (n : Nat) : refSliceLen 0 (n : Int) 1 = n := by
  unfold refSliceLen
  rw [if_pos (by norm_num)]
  simp only [Int.toNat_one, Int.sub_zero]
  omega

theorem refSliceItems_full (xs : List α) :
    refSliceItems xs 0 1 xs.length = xs.map some := by
  unfold refSliceItems
  apply List.ext_get?
  intro k
  rw [List.get?_map, List.get?_map]
  rcases lt_or_le k xs.length with hk | hk
  · rw [List.get?_range hk]
    show some (refGet xs (0 + (k : Int) * 1)) = Option.map some (xs.get? k)
    unfold refGet
    rw [if_pos (by omega), show (0 + (k : Int) * 1).toNat = k from by omega]
    have hx := List.get?_eq_get (l := xs) hk
    rw [hx]
    rfl
  · have h1 : (List.range xs.length).get? k = none :=
      List.get?_eq_none.mpr (by rw [List.length_range]; omega)
    have h2 : xs.get? k = none := List.get?_eq_none.mpr hk
    rw [h1, h2]
    rfl

/-- C9: on a NON-EMPTY container, the full slice `c[:]` (lines 134–163)
builds a fresh chain of new links holding the same item sequence: the copy
is element-equal to the source, the address sets reached from the two
containers are disjoint (zero shared `Link` objects), and overwriting any
field of a link of one container leaves the other container's item sequence
unchanged.  (The empty-container case instead raises `TypeError`, see the
counterexample.) -/
theorem c9_full_slice_copy (xs : List α) (hne : xs ≠ []) :
    ∃ (h2 : Heap α) (r2 : PyLinks),
      getSliceIdx (mkLinks xs).1 (mkLinks xs).2 none none none = .ok (h2, r2) ∧
      pyList h2 r2 = xs.map some ∧
      pyList h2 (mkLinks xs).2 = xs.map some ∧
      (∀ a ∈ reachOf h2 r2, ∀ b ∈ reachOf h2 (mkLinks xs).2, a ≠ b) ∧
      (∀ a ∈ reachOf h2 r2, ∀ nd : Node α,
        pyList (h2.set a nd) (mkLinks xs).2 = pyList h2 (mkLinks xs).2) ∧
      (∀ b ∈ reachOf h2 (mkLinks xs).2, ∀ nd : Node α,
        pyList (h2.set b nd) r2 = pyList h2 r2) := by
  have hlen : 0 < xs.length := List.length_pos.mpr hne
  have hm := map_some_length xs
  have hmne : xs.map some ≠ [] := by
    intro hcon
    rw [hcon] at hm
    simp at hm
    omega
  rw [mkLinks_eq]
  show ∃ (h2 : Heap α) (r2 : PyLinks),
      getSliceIdx (canonHeap xs) (canonLinks xs) none none none = .ok (h2, r2) ∧
      pyList h2 r2 = xs.map some ∧
      pyList h2 (canonLinks xs) = xs.map some ∧
      (∀ a ∈ reachOf h2 r2, ∀ b ∈ reachOf h2 (canonLinks xs), a ≠ b) ∧
      (∀ a ∈ reachOf h2 r2, ∀ nd : Node α,
        pyList (h2.set a nd) (canonLinks xs) = pyList h2 (canonLinks xs)) ∧
      (∀ b ∈ reachOf h2 (canonLinks xs), ∀ nd : Node α,
        pyList (h2.set b nd) r2 = pyList h2 r2)
  have hc0 : chainAt (canonHeap xs ++ seg xs.length none (xs.map some)) 0 none
      (xs.map some) :=
    chainAt_mono_append (by rw [canonHeap_length]; omega) (chainAt_canon xs) _
  have hcCopy0 := chainAt_append_seg (canonHeap xs) (xs.map some) none
  rw [canonHeap_length] at hcCopy0
  have hlenH : (canonHeap xs ++ seg xs.length none (xs.map some)).length =
      xs.length + xs.length := by
    rw [List.length_append, canonHeap_length, seg_length, hm]
  have hwI0 := walkItems_chain hc0
    ((canonHeap xs ++ seg xs.length none (xs.map some)).length + 1) 0
    (by omega) (by omega)
  simp only [Nat.add_zero, List.drop_zero] at hwI0
  have hwICopy := walkItems_chain hcCopy0
    ((canonHeap xs ++ seg xs.length none (xs.map some)).length + 1) 0
    (by omega) (by omega)
  simp only [Nat.add_zero, List.drop_zero] at hwICopy
  have hwA := walkAddrs_chain hcCopy0
    ((canonHeap xs ++ seg xs.length none (xs.map some)).length + 1) 0
    (by omega) (by omega)
  have hwB := walkAddrs_chain hc0
    ((canonHeap xs ++ seg xs.length none (xs.map some)).length + 1) 0
    (by omega) (by omega)
  simp only [Nat.add_zero, Nat.sub_zero, Nat.zero_add] at hwA hwB
  refine ⟨canonHeap xs ++ seg xs.length none (xs.map some),
    ⟨some xs.length, some (xs.length + (xs.length - 1)), ((xs.length : Nat) : Int)⟩,
    ?_, ?_, ?_, ?_, ?_, ?_⟩
  · rw [getSliceIdx_unfold, canonLinks_length, sliceIndices_full]
    show (match sliceAnchor (canonHeap xs) (canonLinks xs) (0 : Int) with
      | .error e => .error e
      | .ok anchor => getSliceCore (canonHeap xs) (xs.length : Int) anchor
          (some ((xs.length : Int) - 0)) (some 1) :
        Except PyErr (Heap α × PyLinks)) = _
    rw [sliceAnchor_canon hlen (by omega) (by omega)]
    show getSliceCore (canonHeap xs) (xs.length : Int)
      (if (0 : Int) ≤ 0 ∧ (0 : Int) < (xs.length : Int) then some (0 : Int).toNat
        else none)
      (some ((xs.length : Int) - 0)) (some 1) = _
    rw [if_pos ⟨le_refl 0, by omega⟩]
    have hkey := @getSliceCore_canon_pos _ xs 0 (xs.length : Int) 1
      (by omega) (by omega) (by omega) (by omega) (by omega)
    rw [refSliceLen_full, refSliceItems_full] at hkey
    exact hkey
  · have hp := @pyList_seg_result _ xs (xs.map some) hmne
    rw [hm] at hp
    exact hp
  · unfold pyList
    rw [canonLinks_first hlen]
    exact hwI0
  · intro a ha b hb
    have ha2 : a ∈ walkAddrs (canonHeap xs ++ seg xs.length none (xs.map some))
        (some xs.length)
        ((canonHeap xs ++ seg xs.length none (xs.map some)).length + 1) := ha
    have hb2 : b ∈ walkAddrs (canonHeap xs ++ seg xs.length none (xs.map some))
        (canonLinks xs).first
        ((canonHeap xs ++ seg xs.length none (xs.map some)).length + 1) := hb
    rw [canonLinks_first hlen] at hb2
    rw [hwA, List.mem_map] at ha2
    rw [hwB, List.mem_map] at hb2
    obtain ⟨k, hk, rfl⟩ := ha2
    obtain ⟨j, hj, rfl⟩ := hb2
    rw [List.mem_range] at hk hj
    rw [hm] at hj
    omega
  · intro a ha nd
    have ha2 : a ∈ walkAddrs (canonHeap xs ++ seg xs.length none (xs.map some))
        (some xs.length)
        ((canonHeap xs ++ seg xs.length none (xs.map some)).length + 1) := ha
    rw [hwA, List.mem_map] at ha2
    obtain ⟨k, hk, rfl⟩ := ha2
    rw [List.mem_range, hm] at hk
    have hc0s := chainAt_set_out hc0 (b := xs.length + k) (Or.inr (by omega)) nd
    have hw2 := walkItems_chain hc0s
      ((canonHeap xs ++ seg xs.length none (xs.map some)).length + 1) 0
      (by omega) (by omega)
    simp only [Nat.add_zero, List.drop_zero] at hw2
    show walkItems
        ((canonHeap xs ++ seg xs.length none (xs.map some)).set (xs.length + k) nd)
        (canonLinks xs).first
        (((canonHeap xs ++ seg xs.length none (xs.map some)).set
          (xs.length + k) nd).length + 1) =
      walkItems (canonHeap xs ++ seg xs.length none (xs.map some))
        (canonLinks xs).first
        ((canonHeap xs ++ seg xs.length none (xs.map some)).length + 1)
    rw [canonLinks_first hlen, List.length_set]
    rw [hw2, hwI0]
  · intro b hb nd
    have hb2 : b ∈ walkAddrs (canonHeap xs ++ seg xs.length none (xs.map some))
        (canonLinks xs).first
        ((canonHeap xs ++ seg xs.length none (xs.map some)).length + 1) := hb
    rw [canonLinks_first hlen] at hb2
    rw [hwB, List.mem_map] at hb2
    obtain ⟨j, hj, rfl⟩ := hb2
    rw [List.mem_range, hm] at hj
    have hcCs := chainAt_set_out hcCopy0 (b := j) (Or.inl (by omega)) nd
    have hw2 := walkItems_chain hcCs
      ((canonHeap xs ++ seg xs.length none (xs.map some)).length + 1) 0
      (by omega) (by omega)
    simp only [Nat.add_zero, List.drop_zero] at hw2
    show walkItems
        ((canonHeap xs ++ seg xs.length none (xs.map some)).set j nd)
        (some xs.length)
        (((canonHeap xs ++ seg xs.length none (xs.map some)).set j nd).length + 1) =
      walkItems (canonHeap xs ++ seg xs.length none (xs.map some))
        (some xs.length)
        ((canonHeap xs ++ seg xs.length none (xs.map some)).length + 1)
    rw [List.length_set]
    rw [hw2, hwICopy]

theorem c9_full_slice_copy_witness :
    ([1, 2] : List Int) ≠ [] ∧
    (∃ (h2 : Heap Int) (r2 : PyLinks),
      getSliceIdx (mkLinks [1, 2]).1 (mkLinks [1, 2]).2 none none none =
        .ok (h2, r2) ∧
      pyList h2 r2 = [1, 2].map some ∧
      pyList h2 (mkLinks [1, 2]).2 = [1, 2].map some ∧
      (∀ a ∈ reachOf h2 r2, ∀ b ∈ reachOf h2 (mkLinks [1, 2]).2, a ≠ b) ∧
      (∀ a ∈ reachOf h2 r2, ∀ nd : Node Int,
        pyList (h2.set a nd) (mkLinks [1, 2]).2 = pyList h2 (mkLinks [1, 2]).2) ∧
      (∀ b ∈ reachOf h2 (mkLinks [1, 2]).2, ∀ nd : Node Int,
        pyList (h2.set b nd) r2 = pyList h2 r2)) :=
  ⟨by decide, c9_full_slice_copy [1, 2] (by decide)⟩

/-- C9 counterexample: on the EMPTY container the full slice `c[:]` does not
produce an (empty) copy at all — `self.first` is `None`, so line 147's
`self.last << fromback` raises an uncaught `TypeError` (`sliceAnchor`
returns `typeErr`). -/
theorem c9_counterexample :
    getSliceIdx (mkLinks ([] : List Int)).1 (mkLinks ([] : List Int)).2
      none none none = .error .typeErr := rfl

/-- C5 counterexample: the claim quantifies over containers built from any
reference sequence *including the empty sequence*, but slicing the empty
container raises an uncaught `TypeError` (line 147: `None << fromback`),
while reference slicing of the empty sequence yields the empty sequence. -/
theorem c5_counterexample :
    resultItems (getSliceIdx (mkLinks ([] : List Int)).1 (mkLinks ([] : List Int)).2
        (some 0) (some 0) (some 1)) = .error .typeErr ∧
    refSliceFull ([] : List Int) (some 0) (some 0) (some 1) = .ok [] := ⟨rfl, rfl⟩

theorem c5_slice_read_witness :
    ([1, 2, 3] : List Int) ≠ [] ∧
    resultItems (getSliceIdx (mkLinks ([1, 2, 3] : List Int)).1
        (mkLinks ([1, 2, 3] : List Int)).2 (some (-1)) none (some (-2))) =
      refSliceFull ([1, 2, 3] : List Int) (some (-1)) none (some (-2)) :=
  ⟨by decide, c5_slice_read [1, 2, 3] (by decide) (some (-1)) none (some (-2))⟩

end LinkedList
